import Mathlib

/-!
Verification development for the Bobail retrograde solver.

This file gives a shallow embedding, in Lean 4, of the parts of the C++
sources that the checked claims are about:

* the board model, move generation, symmetry canonicalization and the
  64-bit state packing (src/board.cpp, src/movegen.cpp, src/symmetry.cpp);
* the database-backed solver operations (src/retrograde_db.cpp): the state
  registry, the streaming predecessor builder of Phase 2, the terminal
  marking of Phase 3, the retrograde propagation of Phase 4, the batch
  commit sequence of parallel enumeration, and the query operations
  `get_result` / `get_best_move`.

Machine integers are embedded as `Nat` with explicit masking where the
source relies on a fixed width.  Stateful code is embedded as explicit
state passing; the parallel Phase 4 worker loop is embedded as its
sequential (single worker) execution, the `num_threads_ = 1` case of the
source.  The global rules variant is fixed to its default
value `OFFICIAL`, the one the solver runs with.
-/

set_option maxHeartbeats 1000000

namespace Bobail

/-! ## Board model (src/board.cpp, include/board.h) -/

def BOARD_SIZE : Nat := 5

def NUM_SQUARES : Nat := 25

/-- Game state, as in `struct State`: two pawn bitboards (bits 0-24 used by
valid states, but the C++ fields are 32-bit wide), the Bobail square and the
side to move. -/
structure State where
  white_pawns : Nat
  black_pawns : Nat
  bobail_sq : Nat
  white_to_move : Bool
deriving DecidableEq, Repr

/-- `State::row`. -/
def State.row (sq : Nat) : Nat := sq / BOARD_SIZE

/-- `State::col`. -/
def State.col (sq : Nat) : Nat := sq % BOARD_SIZE

/-- `State::square`. -/
def State.square (row col : Nat) : Nat := row * BOARD_SIZE + col

/-- `State::starting_position`. -/
def starting_position : State :=
  { white_pawns := 0b11111
    black_pawns := 0b11111 <<< 20
    bobail_sq := 12
    white_to_move := true }

/-- `State::occupied`. -/
def State.occupied (s : State) : Nat :=
  s.white_pawns ||| s.black_pawns ||| (1 <<< s.bobail_sq)

/-- `pack_state`: bits 0-24 white pawns, bits 25-49 black pawns, bits 50-54
bobail square, bit 55 side to move, combined with bitwise or exactly as the
source does. -/
def pack_state (s : State) : Nat :=
  s.white_pawns |||
    (s.black_pawns <<< 25) |||
    (s.bobail_sq <<< 50) |||
    ((if s.white_to_move then 1 else 0) <<< 55)

/-- `unpack_state`. -/
def unpack_state (packed : Nat) : State :=
  { white_pawns := packed &&& 0x1FFFFFF
    black_pawns := (packed >>> 25) &&& 0x1FFFFFF
    bobail_sq := (packed >>> 50) &&& 0x1F
    white_to_move := ((packed >>> 55) &&& 1) == 1 }

/-- `enum class GameResult`. -/
inductive GameResult where
  | ONGOING
  | WHITE_WINS
  | BLACK_WINS
  | DRAW
deriving DecidableEq, Repr

/-- `check_terminal`: Bobail on row 0 is a White win, on row 4 a Black win. -/
def check_terminal (s : State) : GameResult :=
  if State.row s.bobail_sq = 0 then GameResult.WHITE_WINS
  else if State.row s.bobail_sq = BOARD_SIZE - 1 then GameResult.BLACK_WINS
  else GameResult.ONGOING

/-! ## Move generation (src/movegen.cpp, include/movegen.h) -/

/-- `enum Direction` (the eight king directions). -/
inductive Direction where
  | NORTH
  | SOUTH
  | EAST
  | WEST
  | NORTH_EAST
  | NORTH_WEST
  | SOUTH_EAST
  | SOUTH_WEST
deriving DecidableEq, Repr

/-- The square-index offset of each direction, as in `enum Direction`. -/
def Direction.offset : Direction → Int
  | .NORTH => -5
  | .SOUTH => 5
  | .EAST => 1
  | .WEST => -1
  | .NORTH_EAST => -4
  | .NORTH_WEST => -6
  | .SOUTH_EAST => 6
  | .SOUTH_WEST => 4

/-- `ALL_DIRECTIONS`, in source order. -/
def ALL_DIRECTIONS : List Direction :=
  [.NORTH, .SOUTH, .EAST, .WEST, .NORTH_EAST, .NORTH_WEST, .SOUTH_EAST, .SOUTH_WEST]

/-- `can_move`: whether one step in direction `d` from `sq` stays on the
board. -/
def can_move (sq : Nat) (d : Direction) : Bool :=
  let r := State.row sq
  let c := State.col sq
  match d with
  | .NORTH => r > 0
  | .SOUTH => r < BOARD_SIZE - 1
  | .EAST => c < BOARD_SIZE - 1
  | .WEST => c > 0
  | .NORTH_EAST => r > 0 && c < BOARD_SIZE - 1
  | .NORTH_WEST => r > 0 && c > 0
  | .SOUTH_EAST => r < BOARD_SIZE - 1 && c < BOARD_SIZE - 1
  | .SOUTH_WEST => r < BOARD_SIZE - 1 && c > 0

/-- One step in direction `d`; only used under a `can_move` guard, so the
intermediate `Int` is nonnegative. -/
def dstep (sq : Nat) (d : Direction) : Nat :=
  ((sq : Nat) + d.offset : Int).toNat

/-- The while loop of `init_move_tables` building one ray, with explicit
fuel; the loop runs at most four times on the 5x5 board, so fuel
`NUM_SQUARES` is never exhausted. -/
def ray_from (fuel : Nat) (curr : Nat) (d : Direction) : List Nat :=
  match fuel with
  | 0 => []
  | fuel + 1 =>
    if can_move curr d then
      let nxt := dstep curr d
      nxt :: ray_from fuel nxt d
    else []

/-- `rays[sq][di]`. -/
def rays (sq : Nat) (d : Direction) : List Nat := ray_from NUM_SQUARES sq d

/-- `neighbors[sq]` (1-step moves for the Bobail). -/
def neighbors (sq : Nat) : List Nat :=
  ALL_DIRECTIONS.filterMap fun d =>
    if can_move sq d then some (dstep sq d) else none

/-- A move: Bobail destination plus a pawn move, as in `struct Move`. -/
structure Move where
  bobail_to : Nat
  pawn_from : Nat
  pawn_to : Nat
deriving DecidableEq, Repr

/-- `generate_bobail_moves`: free neighbor squares of the Bobail. -/
def generate_bobail_moves (s : State) : List Nat :=
  (neighbors s.bobail_sq).filter fun dest => !(State.occupied s).testBit dest

/-- The set-bit iteration order of `generate_pawn_moves` (repeated
`countr_zero`, i.e. ascending square index). -/
def pawn_squares (pawns : Nat) : List Nat :=
  (List.range NUM_SQUARES).filter fun sq => pawns.testBit sq

/-- The inner loop of `generate_pawn_moves` under the default OFFICIAL
variant: the furthest unoccupied square along the ray before the first
blocker, if any. -/
def furthest_dest (occupied : Nat) (r : List Nat) : Option Nat :=
  (r.takeWhile fun dest => !occupied.testBit dest).getLast?

/-- `generate_pawn_moves` (OFFICIAL variant, the default). -/
def generate_pawn_moves (pawns occupied : Nat) : List (Nat × Nat) :=
  (pawn_squares pawns).flatMap fun sq =>
    ALL_DIRECTIONS.filterMap fun d =>
      (furthest_dest occupied (rays sq d)).map fun dest => (sq, dest)

/-- `is_starting_position`. -/
def is_starting_position (s : State) : Bool :=
  s.white_to_move &&
    s.white_pawns == 0b11111 &&
    s.black_pawns == (0b11111 <<< 20) &&
    s.bobail_sq == 12

/-- `countr_zero` on a 32-bit value (32 when the value is zero). -/
def ctz32 (x : Nat) : Nat :=
  ((List.range 32).find? fun i => x.testBit i).getD 32

/-- `generate_moves`: on the first turn only pawn moves; otherwise a Bobail
step followed by a pawn move, where a Bobail step onto a goal row is a
terminal move recorded with a dummy stay-in-place pawn move. -/
def generate_moves (s : State) : List Move :=
  let our_pawns := if s.white_to_move then s.white_pawns else s.black_pawns
  if is_starting_position s then
    (generate_pawn_moves our_pawns (State.occupied s)).map fun ft =>
      { bobail_to := s.bobail_sq, pawn_from := ft.1, pawn_to := ft.2 }
  else
    (generate_bobail_moves s).flatMap fun bdest =>
      let brow := State.row bdest
      if brow = 0 ∨ brow = BOARD_SIZE - 1 then
        let first_pawn := ctz32 our_pawns
        [{ bobail_to := bdest, pawn_from := first_pawn, pawn_to := first_pawn }]
      else
        let new_occupied := s.white_pawns ||| s.black_pawns ||| (1 <<< bdest)
        (generate_pawn_moves our_pawns new_occupied).map fun ft =>
          { bobail_to := bdest, pawn_from := ft.1, pawn_to := ft.2 }

/-- `apply_move`; the 32-bit complement `~from_bit` is embedded as xor with
the 32-bit all-ones mask. -/
def apply_move (s : State) (m : Move) : State :=
  let from_bit := 1 <<< m.pawn_from
  let to_bit := 1 <<< m.pawn_to
  let mask := 0xFFFFFFFF ^^^ from_bit
  if s.white_to_move then
    { white_pawns := (s.white_pawns &&& mask) ||| to_bit
      black_pawns := s.black_pawns
      bobail_sq := m.bobail_to
      white_to_move := false }
  else
    { white_pawns := s.white_pawns
      black_pawns := (s.black_pawns &&& mask) ||| to_bit
      bobail_sq := m.bobail_to
      white_to_move := true }

/-! ## Symmetry (src/symmetry.cpp) -/

/-- `apply_sym_coords`: the eight D4 symmetries on 5x5 coordinates. -/
def apply_sym_coords (r c sym : Nat) : Nat × Nat :=
  match sym with
  | 0 => (r, c)
  | 1 => (c, BOARD_SIZE - 1 - r)
  | 2 => (BOARD_SIZE - 1 - r, BOARD_SIZE - 1 - c)
  | 3 => (BOARD_SIZE - 1 - c, r)
  | 4 => (r, BOARD_SIZE - 1 - c)
  | 5 => (BOARD_SIZE - 1 - c, BOARD_SIZE - 1 - r)
  | 6 => (BOARD_SIZE - 1 - r, c)
  | 7 => (c, r)
  | _ => (r, c)

/-- `symmetry_map[sym][sq]`. -/
def symmetry_map (sym sq : Nat) : Nat :=
  let rc := apply_sym_coords (State.row sq) (State.col sq) sym
  State.square rc.1 rc.2

/-- `transform_bitboard`. -/
def transform_bitboard (bb sym : Nat) : Nat :=
  (List.range NUM_SQUARES).foldl
    (fun acc sq => if bb.testBit sq then acc ||| (1 <<< symmetry_map sym sq) else acc) 0

/-- `apply_symmetry`. -/
def apply_symmetry (s : State) (sym : Nat) : State :=
  { white_pawns := transform_bitboard s.white_pawns sym
    black_pawns := transform_bitboard s.black_pawns sym
    bobail_sq := symmetry_map sym s.bobail_sq
    white_to_move := s.white_to_move }

/-- `canonicalize`: the symmetry image with the smallest packed value,
together with the symmetry index that produced it. -/
def canonicalize (s : State) : State × Nat :=
  (List.range 7).foldl
    (fun best i =>
      let sym := i + 1
      let t := apply_symmetry s sym
      if pack_state t < pack_state best.1 then (t, sym) else best)
    (s, 0)

end Bobail

namespace Bobail

/-! ## Solver data model (include/retrograde_db.h) -/

/-- `enum class Result` (stored in the `result` byte of `StateInfoCompact`). -/
inductive Result where
  | UNKNOWN
  | WIN
  | LOSS
  | DRAW
deriving DecidableEq, Repr

/-- `struct StateInfoCompact`: the fixed-size per-state record of the
`states` column family. -/
structure StateInfoCompact where
  packed : Nat
  result : Result
  num_successors : Nat
  winning_succs : Nat
deriving DecidableEq, Repr

/-- `enum class SolvePhaseDB`. -/
inductive SolvePhaseDB where
  | NOT_STARTED
  | ENUMERATING
  | BUILDING_PREDECESSORS
  | MARKING_TERMINALS
  | PROPAGATING
  | COMPLETE
deriving DecidableEq, Repr

/-! ## State registry (`get_or_create_state` and the batched creation path
of `enumerate_states_parallel`, src/retrograde_db.cpp) -/

/-- The registry portion of the database: the id counter `num_states_`, the
`states` column family and the `packed_to_id` column family. -/
structure Registry where
  num_states : Nat
  states : Nat → Option StateInfoCompact
  packed_to_id : Nat → Option Nat

/-- `RetrogradeSolverDB::get_or_create_state`: look the packed value up; on
a miss allocate `id = num_states_++` and write both the `states` entry
`{packed, UNKNOWN, 0, 0}` and the `packed_to_id` entry. -/
def get_or_create_state (reg : Registry) (packed : Nat) : Registry × Nat :=
  match reg.packed_to_id packed with
  | some id => (reg, id)
  | none =>
    let id := reg.num_states
    let info : StateInfoCompact :=
      { packed := packed, result := Result.UNKNOWN, num_successors := 0, winning_succs := 0 }
    ({ num_states := id + 1
       states := Function.update reg.states id (some info)
       packed_to_id := Function.update reg.packed_to_id packed (some id) }, id)

/-- The `add_new_state` lambda of `enumerate_states_parallel`: create a new
id unconditionally (the caller guarantees the packed value is absent).  The
source allocates `num_states_ + actual_new_count` and adds the batch count
to `num_states_` once at the end; folding this function increments the
counter one allocation at a time, which yields the same ids.  The queue
append and bloom insert of the source lambda do not touch the registry and
are modelled with the commit sequence below. -/
def add_new_state (reg : Registry) (packed : Nat) : Registry :=
  let id := reg.num_states
  let info : StateInfoCompact :=
    { packed := packed, result := Result.UNKNOWN, num_successors := 0, winning_succs := 0 }
  { num_states := id + 1
    states := Function.update reg.states id (some info)
    packed_to_id := Function.update reg.packed_to_id packed (some id) }

/-- `std::sort` followed by `std::unique` on a vector of packed values. -/
def sort_unique (l : List Nat) : List Nat :=
  (l.mergeSort (· ≤ ·)).dedup

/-- The merge step of one batch of `enumerate_states_parallel`: the
per-thread `definitely_new` buckets are concatenated, sorted and
deduplicated; the `maybe_exists` buckets likewise, then set-differenced
against `definitely_new`; survivors of a `packed_to_id` multiget miss are
new; all new packed values are registered with `add_new_state`. -/
def merge_new_states (reg : Registry)
    (thread_definitely_new thread_maybe_exists : List (List Nat)) : Registry :=
  let all_definitely_new := sort_unique thread_definitely_new.flatten
  let all_maybe_exists := sort_unique thread_maybe_exists.flatten
  let filtered_maybe_exists := all_maybe_exists.filter fun p => p ∉ all_definitely_new
  let new_from_check := filtered_maybe_exists.filter fun p => reg.packed_to_id p = none
  (all_definitely_new ++ new_from_check).foldl add_new_state reg

/-- The registry invariant of the claim: ids are allocated contiguously
from 0, every stored `states` entry points back to its own id through
`packed_to_id`, and every `packed_to_id` entry points to a `states` entry
holding that packed value. -/
def RegistryInv (reg : Registry) : Prop :=
  (∀ id, (reg.states id).isSome ↔ id < reg.num_states) ∧
  (∀ id info, reg.states id = some info → reg.packed_to_id info.packed = some id) ∧
  (∀ packed id, reg.packed_to_id packed = some id →
    ∃ info, reg.states id = some info ∧ info.packed = packed)

/-! ## Phase 2: streaming predecessor builder
(`build_predecessors_streaming`, src/retrograde_db.cpp) -/

/-- The per-item work of a Phase 2 worker on a consumed `(id, packed)` pair:
skip adapter terminals, otherwise for every legal move canonicalize the
successor, look it up in the packed-to-id cache (`lookup`), and on a hit
append the item's id to the thread-local buffer entry of the successor id.
The source pushes once per move and performs no deduplication. -/
def phase2_process_item (lookup : Nat → Option Nat) (buf : Nat → List Nat)
    (item : Nat × Nat) : Nat → List Nat :=
  let s := unpack_state item.2
  if check_terminal s ≠ GameResult.ONGOING then buf
  else
    (generate_moves s).foldl
      (fun b m =>
        match lookup (pack_state (canonicalize (apply_move s m)).1) with
        | some v => Function.update b v (b v ++ [item.1])
        | none => b)
      buf

/-- The value flushed by `flush_buffer` under the compound key
`(succ_id, thread_id)`: the buffer entry of `succ_id`, written as-is. -/
def phase2_flush_value (buf : Nat → List Nat) (succ_id : Nat) : List Nat :=
  buf succ_id

/-! ## Phase 3: terminal marking (`mark_terminals_parallel`,
src/retrograde_db.cpp) -/

/-- The per-state body of `mark_terminals_parallel` (identical to the one
of `mark_terminals`): adapter wins and losses are classified from the side
to move; otherwise a state whose stored `num_successors` is zero is marked
LOSS when it really has no legal moves, and otherwise has its
`num_successors` repaired (the source comments call this the resume fix). -/
def mark_terminal_info (info : StateInfoCompact) : StateInfoCompact :=
  let s := unpack_state info.packed
  match check_terminal s with
  | GameResult.WHITE_WINS =>
    if s.white_to_move then { info with result := Result.WIN }
    else { info with result := Result.LOSS }
  | GameResult.BLACK_WINS =>
    if !s.white_to_move then { info with result := Result.WIN }
    else { info with result := Result.LOSS }
  | _ =>
    if info.num_successors = 0 then
      if generate_moves s = [] then { info with result := Result.LOSS }
      else { info with num_successors := (generate_moves s).length }
    else info

/-- The adapter classifies the state as won for the side to move. -/
def adapter_won (s : State) : Prop :=
  (check_terminal s = GameResult.WHITE_WINS ∧ s.white_to_move = true) ∨
  (check_terminal s = GameResult.BLACK_WINS ∧ s.white_to_move = false)

/-- The adapter classifies the state as lost for the side to move. -/
def adapter_lost (s : State) : Prop :=
  (check_terminal s = GameResult.WHITE_WINS ∧ s.white_to_move = false) ∨
  (check_terminal s = GameResult.BLACK_WINS ∧ s.white_to_move = true)

instance (s : State) : Decidable (adapter_won s) := by
  unfold adapter_won; infer_instance

instance (s : State) : Decidable (adapter_lost s) := by
  unfold adapter_lost; infer_instance

/-! ## Query interface (`get_result`, `get_best_move`,
src/retrograde_db.cpp) -/

/-- The read-only view of a solved database used by the query interface:
the `packed_to_id` and `states` column families. -/
structure SolvedDB where
  packed_to_id : Nat → Option Nat
  state_info : Nat → Option StateInfoCompact

/-- `RetrogradeSolverDB::get_state_id` (−1 becomes `none`). -/
def get_state_id (db : SolvedDB) (packed : Nat) : Option Nat :=
  db.packed_to_id packed

/-- `RetrogradeSolverDB::get_result`: canonicalize, look up the id, look up
the state info; every miss yields UNKNOWN. -/
def get_result (db : SolvedDB) (s : State) : Result :=
  match get_state_id db (pack_state (canonicalize s).1) with
  | some id =>
    match db.state_info id with
    | some info => info.result
    | none => Result.UNKNOWN
  | none => Result.UNKNOWN

/-- The selection condition of the `get_best_move` loop. -/
def best_move_cond (my_result opp_result : Result) : Bool :=
  (my_result == Result.WIN && opp_result == Result.LOSS) ||
  (my_result == Result.DRAW && opp_result == Result.DRAW) ||
  (my_result == Result.LOSS && (opp_result == Result.DRAW || opp_result == Result.WIN))

/-- `RetrogradeSolverDB::get_best_move`: return the first generated move
whose child result satisfies the selection condition, else the first legal
move; a zero `Move{}` when there are no moves. -/
def get_best_move (db : SolvedDB) (s : State) : Move :=
  let my_result := get_result db s
  match generate_moves s with
  | [] => { bobail_to := 0, pawn_from := 0, pawn_to := 0 }
  | m0 :: _ =>
    match (generate_moves s).find? (fun m => best_move_cond my_result (get_result db (apply_move s m))) with
    | some m => m
    | none => m0

end Bobail

namespace Bobail

/-! ## Phase 4: retrograde propagation (`RetrogradeSolverDB::propagate`,
src/retrograde_db.cpp)

The wave is embedded over an abstract finite state space `Fin n`: the
database contents after Phases 1-3 are the parameters (`nsucc` for the
stored `num_successors` fields, `preds` for the stored predecessor lists,
`initRes` for the results set by Phase 3).  The worker loop is embedded as
its sequential single-worker execution: one queue entry is popped, the
predecessor list of the popped child is processed in order, newly resolved
predecessors are appended to the queue.  The loop runs until the queue is
empty; the embedding carries explicit fuel and is run with provably
sufficient fuel.

This is the read-your-writes idealization of the source loop: every
appended queue entry is eventually popped, and every update is visible to
the next read.  The source worker instead buffers its writes in the
thread-local batch `local_batch` and reads through `db_->Get`, which sees
committed data only (that faithful execution is modeled further below, as
`buf_worker`); since the idealization pops a superset of the entries the
source processes and sees every increment immediately, every
`winning_succs` value the source ever writes also arises here, so the
counter bound proved over this model covers the source. -/

/-- The mutable per-state data of the wave: the `result` and
`winning_succs` fields of the `states` column family. -/
structure PropState (n : Nat) where
  res : Fin n → Result
  ws : Fin n → Nat

/-- The body of the `for (uint32_t pred_id : preds)` loop of the Phase 4
worker, for one predecessor `p` of a popped child with result `cres`:
already resolved predecessors are skipped; a LOSS child makes `p` WIN and
enqueues it; a WIN child increments `p`'s `winning_succs` and, when the
count reaches `num_successors`, makes `p` LOSS and enqueues it. -/
def step_pred (nsucc : Fin n → Nat) (cres : Result)
    (acc : PropState n × List (Fin n)) (p : Fin n) : PropState n × List (Fin n) :=
  if acc.1.res p = Result.UNKNOWN then
    match cres with
    | Result.LOSS =>
      ({ res := Function.update acc.1.res p Result.WIN, ws := acc.1.ws }, acc.2 ++ [p])
    | Result.WIN =>
      let w := acc.1.ws p + 1
      if nsucc p ≤ w then
        ({ res := Function.update acc.1.res p Result.LOSS
           ws := Function.update acc.1.ws p w }, acc.2 ++ [p])
      else
        ({ res := acc.1.res, ws := Function.update acc.1.ws p w }, acc.2)
    | _ => acc
  else acc

/-- Processing one popped queue entry `c`: read its result, then run the
predecessor loop over its stored predecessor list.  Returns the updated
state data and the list of newly enqueued ids. -/
def process_child (nsucc : Fin n → Nat) (preds : Fin n → List (Fin n))
    (st : PropState n) (c : Fin n) : PropState n × List (Fin n) :=
  (preds c).foldl (step_pred nsucc (st.res c)) (st, [])

/-- The wave loop with explicit fuel: pop the queue head, process it,
append the newly enqueued ids at the tail. -/
def wave (nsucc : Fin n → Nat) (preds : Fin n → List (Fin n)) :
    Nat → PropState n → List (Fin n) → PropState n
  | _, st, [] => st
  | 0, st, _ :: _ => st
  | fuel + 1, st, c :: q =>
    let r := process_child nsucc preds st c
    wave nsucc preds fuel r.1 (q ++ r.2)

/-- The seed queue of Stage A: every state already resolved by Phase 3, in
scan order. -/
def seed_queue (initRes : Fin n → Result) : List (Fin n) :=
  (List.finRange n).filter fun u => initRes u ≠ Result.UNKNOWN

/-- The number of UNKNOWN entries of a result assignment; the wave measure
is `queue length + 2 * unknown count`, which strictly decreases at every
step. -/
def unknown_count (res : Fin n → Result) : Nat :=
  (Finset.univ.filter fun u => res u = Result.UNKNOWN).card

/-- Phase 4 end to end: seed the queue with the Phase 3 results, run the
wave to exhaustion (the fuel `n + n + 2 * n` dominates the wave measure),
then rewrite every remaining UNKNOWN to DRAW (the draw finalization pass). -/
def run_phase4 (nsucc : Fin n → Nat) (preds : Fin n → List (Fin n))
    (initRes : Fin n → Result) : Fin n → Result :=
  let final := wave nsucc preds (n + 2 * n)
    { res := initRes, ws := fun _ => 0 } (seed_queue initRes)
  fun u => if final.res u = Result.UNKNOWN then Result.DRAW else final.res u

/-! ## Batch commit of parallel enumeration
(`enumerate_states_parallel`, src/retrograde_db.cpp, lines 797-815, and
`save_metadata`, lines 103-126)

At the end of a batch the source performs two separate RocksDB writes:
first `db_->Write(&batch)` with the state-info updates, the new `states`
and `packed_to_id` entries and the new `queue` appends, then
`save_metadata()` with a second `WriteBatch` holding the metadata scalars,
among them `queue_head`.  Each write is atomic on its own; a crash may fall
between them.  The persisted snapshots are embedded below. -/

/-- The persisted key-value content relevant to the batch commit. -/
structure EnumSnapshot where
  states : Nat → Option StateInfoCompact
  packed_to_id : Nat → Option Nat
  queue : Nat → Option Nat
  meta_num_states : Nat
  meta_queue_head : Nat
  meta_queue_tail : Nat

/-- The first write, `db_->Write(&batch)`: apply the state-info updates and
the entries added by `add_new_state` (a `states` put, a `packed_to_id` put
and a `queue` put per new state).  Metadata is untouched. -/
def apply_enum_batch (db : EnumSnapshot)
    (state_updates : List (Nat × StateInfoCompact))
    (new_states : List (Nat × StateInfoCompact))
    (new_packed : List (Nat × Nat))
    (queue_appends : List (Nat × Nat)) : EnumSnapshot :=
  { db with
    states := (state_updates ++ new_states).foldl
      (fun f kv => Function.update f kv.1 (some kv.2)) db.states
    packed_to_id := new_packed.foldl
      (fun f kv => Function.update f kv.1 (some kv.2)) db.packed_to_id
    queue := queue_appends.foldl
      (fun f kv => Function.update f kv.1 (some kv.2)) db.queue }

/-- The second write, `save_metadata()`: one batch with the metadata
scalars, among them the advanced `queue_head`. -/
def apply_save_metadata (db : EnumSnapshot)
    (num_states queue_head queue_tail : Nat) : EnumSnapshot :=
  { db with
    meta_num_states := num_states
    meta_queue_head := queue_head
    meta_queue_tail := queue_tail }

/-- The three possible persisted snapshots of one batch commit: before
either write, after the batch write only (the state a crash between the two
writes leaves behind), and after both writes. -/
def enum_commit_snapshots (db : EnumSnapshot)
    (state_updates : List (Nat × StateInfoCompact))
    (new_states : List (Nat × StateInfoCompact))
    (new_packed : List (Nat × Nat))
    (queue_appends : List (Nat × Nat))
    (num_states queue_head queue_tail : Nat) : List EnumSnapshot :=
  let after_batch := apply_enum_batch db state_updates new_states new_packed queue_appends
  [db, after_batch, apply_save_metadata after_batch num_states queue_head queue_tail]

/-! ## `RetrogradeSolverDB::solve` phase dispatch (src/retrograde_db.cpp,
lines 157-208)

The dispatcher is embedded parametrically in the four phase bodies and in
`save_metadata`; it mirrors the chain of `if` statements of the source,
each of which reads the current phase, runs a phase body, advances the
phase and persists metadata. -/

/-- The engine state seen by `solve`: the persisted phase and the database
contents (abstract). -/
structure Engine (α : Type) where
  phase : SolvePhaseDB
  db : α

/-- `RetrogradeSolverDB::solve` on an open database. -/
def solve_dispatch {α : Type}
    (enumerate build_preds mark_terms propagate : α → α)
    (save_meta : SolvePhaseDB → α → α) (e : Engine α) : Engine α × Bool :=
  let e1 :=
    if e.phase = SolvePhaseDB.NOT_STARTED ∨ e.phase = SolvePhaseDB.ENUMERATING then
      let db := enumerate e.db
      { phase := SolvePhaseDB.BUILDING_PREDECESSORS
        db := save_meta SolvePhaseDB.BUILDING_PREDECESSORS db }
    else e
  let e2 :=
    if e1.phase = SolvePhaseDB.BUILDING_PREDECESSORS then
      let db := build_preds e1.db
      { phase := SolvePhaseDB.MARKING_TERMINALS
        db := save_meta SolvePhaseDB.MARKING_TERMINALS db }
    else e1
  let e3 :=
    if e2.phase = SolvePhaseDB.MARKING_TERMINALS then
      let db := mark_terms e2.db
      { phase := SolvePhaseDB.PROPAGATING
        db := save_meta SolvePhaseDB.PROPAGATING db }
    else e2
  let e4 :=
    if e3.phase = SolvePhaseDB.PROPAGATING then
      let db := propagate e3.db
      { phase := SolvePhaseDB.COMPLETE
        db := save_meta SolvePhaseDB.COMPLETE db }
    else e3
  (e4, true)

end Bobail

namespace Bobail


/-! ## Concrete instances used by the claim theorems -/

/-- The canonical form of the starting position: the first state the
enumeration stores (it becomes id 0 and is processed by every phase). -/
def canonical_start : State := (canonicalize starting_position).1

/-- An adapter-terminal stored state with the mover winning: reachable from
the canonical starting state in two stored-graph steps (see the reachability
conjuncts of the Phase 4 counterexample below), it has the Bobail on row 0
with White to move, so `check_terminal` reports a win for the side to move. -/
def win_terminal_state : State :=
  { white_pawns := 65565, black_pawns := 32505856, bobail_sq := 1, white_to_move := true }

/-- A fresh, empty registry. -/
def empty_registry : Registry :=
  { num_states := 0, states := fun _ => none, packed_to_id := fun _ => none }

/-- An empty persisted database for the commit-sequence instance. -/
def enum_db0 : EnumSnapshot :=
  { states := fun _ => none
    packed_to_id := fun _ => none
    queue := fun _ => none
    meta_num_states := 0
    meta_queue_head := 0
    meta_queue_tail := 0 }

/-- A solved-database view for the `get_best_move` instance: the identity
registry (every canonical packed value is its own id), with the canonical
starting state recorded as LOSS, the child reached by the last generated
move recorded as DRAW, and every other state as WIN. -/
def c7_db : SolvedDB :=
  { packed_to_id := fun p => some p
    state_info := fun p =>
      some { packed := p
             result :=
               if p = 49539596973768704 then Result.LOSS
               else if p = 7336509053109537 then Result.DRAW
               else Result.WIN
             num_successors := 0
             winning_succs := 0 } }


/-- The number of already processed WIN children of `u` (children counted
with multiplicity, WIN and no longer queued). -/
def win_done_count {n : Nat} (succs : Fin n → List (Fin n)) (res : Fin n → Result)
    (q : List (Fin n)) (u : Fin n) : Nat :=
  (succs u).countP fun v => decide (res v = Result.WIN) && decide (v ∉ q)

/-- The invariant carried through the Phase 4 wave, relating the mutable
fields to the abstract successor lists. -/
structure WaveInv {n : Nat} (succs : Fin n → List (Fin n)) (nsucc : Fin n → Nat)
    (initRes : Fin n → Result) (st : PropState n) (q : List (Fin n)) : Prop where
  init_keep : ∀ u, initRes u ≠ Result.UNKNOWN → st.res u = initRes u
  win_char : ∀ u, st.res u = Result.WIN →
    initRes u = Result.WIN ∨ ∃ v ∈ succs u, st.res v = Result.LOSS
  loss_char : ∀ u, st.res u = Result.LOSS →
    initRes u = Result.LOSS ∨ ∀ v ∈ succs u, st.res v = Result.WIN
  no_draw : ∀ u, st.res u ≠ Result.DRAW
  q_resolved : ∀ c ∈ q, st.res c ≠ Result.UNKNOWN
  q_nodup : q.Nodup
  ws_eq : ∀ u, st.res u = Result.UNKNOWN → st.ws u = win_done_count succs st.res q u
  ws_lt : ∀ u, st.res u = Result.UNKNOWN → st.ws u < nsucc u
  loss_done : ∀ v, st.res v = Result.LOSS →
    v ∈ q ∨ ∀ u, v ∈ succs u → st.res u ≠ Result.UNKNOWN

/-- The intermediate stored state of the counterexample chain (the
canonical successor of the canonical starting state under the move
`{17, 21, 6}`). -/
def mid_state : State :=
  { white_pawns := 65565, black_pawns := 32505856, bobail_sq := 7, white_to_move := false }

/-- The one-state Phase 4 instance of the adapter-won terminal: no stored
successors, no predecessor edges, and the Phase 3 result computed by the
embedded marking code. -/
def cex_succs : Fin 1 → List (Fin 1) := fun _ => []

def cex_nsucc : Fin 1 → Nat := fun _ => 0

def cex_preds : Fin 1 → List (Fin 1) := fun _ => []

def cex_init : Fin 1 → Result := fun _ =>
  (mark_terminal_info
    { packed := pack_state win_terminal_state
      result := Result.UNKNOWN
      num_successors := 0
      winning_succs := 0 }).result

/-- The two-state Phase 4 instance of the witness: state 0 has two legal
moves, both reaching state 1 (a terminal LOSS), so its predecessor entry
appears twice in state 1's list. -/
def p4w_succs : Fin 2 → List (Fin 2) := ![[1, 1], []]

def p4w_nsucc : Fin 2 → Nat := ![2, 0]

def p4w_preds : Fin 2 → List (Fin 2) := ![[], [0, 0]]

def p4w_init : Fin 2 → Result := ![Result.UNKNOWN, Result.LOSS]

/-- The two-state instance of the winning-successor-counter witness. -/
def c3w_nsucc : Fin 2 → Nat := ![1, 0]

def c3w_preds : Fin 2 → List (Fin 2) := ![[], [0]]

def c3w_st : PropState 2 :=
  { res := ![Result.UNKNOWN, Result.WIN], ws := ![0, 0] }

end Bobail

namespace Bobail

/-! ## Phase 4 under the thread-local write batch
(`RetrogradeSolverDB::propagate`, src/retrograde_db.cpp, lines 1659-1781)

The worker of the wave does not read its own recent writes: the queue
appends and the state-record updates go into the thread-local RocksDB
`WriteBatch` `local_batch` (lines 1745, 1759, 1767), which reaches the
database only when `local_batch_count` reaches `LOCAL_BATCH_SIZE = 1000`
(lines 1775-1779) or when the worker exits (lines 1672-1680), while the
worker reads queue entries (line 1684) and state records (lines 1697,
1719) through `db_->Get`, which sees committed data only; a queue index
whose entry is still buffered reads as missing and is skipped (lines
1686-1689).  The model below carries the pending batch explicitly; it is
the sequential execution of the single worker (`num_threads_ = 1`). -/

/-- One pending `Put` of the thread-local batch: a queue entry
(`cf_queue_`, queue index to state id) or a state record (`cf_states_`,
state id to result and `winning_succs`). -/
inductive BufPut (n : Nat) where
  | queue (idx : Nat) (id : Fin n)
  | state (id : Fin n) (r : Result) (w : Nat)

/-- The view of the Phase 4 worker: the committed database (the `result`
and `winning_succs` fields of the states column family, and the queue
column family), the in-memory `atomic_prop_head` and `atomic_prop_tail`
counters, and the thread-local pending batch with `local_batch_count`. -/
structure BufState (n : Nat) where
  res : Fin n → Result
  ws : Fin n → Nat
  queueDB : Nat → Option (Fin n)
  head : Nat
  tail : Nat
  pending : List (BufPut n)
  pcount : Nat

/-- Committing one pending `Put` to the database; a later put to the same
key overwrites an earlier one. -/
def apply_put {n : Nat} (st : BufState n) : BufPut n → BufState n
  | BufPut.queue i v =>
    { st with queueDB := fun j => if j = i then some v else st.queueDB j }
  | BufPut.state v r w =>
    { st with res := Function.update st.res v r,
              ws := Function.update st.ws v w }

/-- `db_->Write(&local_batch); local_batch.Clear()`: commit the pending
puts in order, then clear the batch. -/
def buf_flush {n : Nat} (st : BufState n) : BufState n :=
  { st.pending.foldl apply_put st with pending := [], pcount := 0 }

/-- The body of the predecessor loop of the Phase 4 worker (lines
1714-1770) for one predecessor `p` of a popped child with result `cres`.
The record of `p` is read through `db_->Get` (line 1719), so an update to
`p` still sitting in the pending batch is not seen and the stale committed
record is used; the queue append and the record write are buffered, in the
order the source issues them.  A child result other than WIN or LOSS
writes the unchanged record back when `winning_succs > 0` (line 1764). -/
def buf_step_pred {n : Nat} (nsucc : Fin n → Nat) (cres : Result)
    (st : BufState n) (p : Fin n) : BufState n :=
  if st.res p = Result.UNKNOWN then
    match cres with
    | Result.LOSS =>
      { st with tail := st.tail + 1,
                pending := st.pending ++
                  [BufPut.queue st.tail p, BufPut.state p Result.WIN (st.ws p)],
                pcount := st.pcount + 2 }
    | Result.WIN =>
      let w := st.ws p + 1
      if nsucc p ≤ w then
        { st with tail := st.tail + 1,
                  pending := st.pending ++
                    [BufPut.queue st.tail p, BufPut.state p Result.LOSS w],
                  pcount := st.pcount + 2 }
      else
        { st with pending := st.pending ++ [BufPut.state p Result.UNKNOWN w],
                  pcount := st.pcount + 1 }
    | _ =>
      if 0 < st.ws p then
        { st with pending := st.pending ++
                    [BufPut.state p Result.UNKNOWN (st.ws p)],
                  pcount := st.pcount + 1 }
      else st
  else st

/-- The worker loop (lines 1663-1781): `fetch_add` the head; when the head
has passed the in-memory tail, write out the remaining batch and exit;
otherwise read the queue entry through `db_->Get` — an entry still
buffered in the pending batch misses and the index is skipped (lines
1686-1689) — then read the child record, run the predecessor loop over the
stored predecessor list, and write out the batch once `local_batch_count`
reaches `LOCAL_BATCH_SIZE = 1000` (lines 1775-1779).  The fuel argument
dominates the number of loop iterations. -/
def buf_worker {n : Nat} (nsucc : Fin n → Nat) (preds : Fin n → List (Fin n)) :
    Nat → BufState n → BufState n
  | 0, st => st
  | fuel + 1, st =>
    let pos := st.head
    let st1 := { st with head := st.head + 1 }
    if st1.tail ≤ pos then buf_flush st1
    else
      match st1.queueDB pos with
      | none => buf_worker nsucc preds fuel st1
      | some c =>
        let st2 := (preds c).foldl (buf_step_pred nsucc (st1.res c)) st1
        let st3 := if 1000 ≤ st2.pcount then buf_flush st2 else st2
        buf_worker nsucc preds fuel st3

/-- Phase 4 end to end under the buffered model, fresh run: the committed
queue column family is seeded with every state already resolved by Phase 3
in scan order, written out in full before the workers start (lines
1592-1641); the head starts at 0 and the tail at the seed length; the
single worker runs; the draw pass (lines 1849-1886) then rewrites every
committed UNKNOWN to DRAW. -/
def run_phase4_buffered {n : Nat} (fuel : Nat) (nsucc : Fin n → Nat)
    (preds : Fin n → List (Fin n)) (initRes : Fin n → Result) : Fin n → Result :=
  let seed := seed_queue initRes
  let final := buf_worker nsucc preds fuel
    { res := initRes
      ws := fun _ => 0
      queueDB := fun i => seed.get? i
      head := 0
      tail := seed.length
      pending := []
      pcount := 0 }
  fun u => if final.res u = Result.UNKNOWN then Result.DRAW else final.res u

/-- A three-state stored graph forming the chain 0 → 1 → 2: state 2 is a
terminal already LOSS after Phase 3; the only move of state 1 leads to 2;
the only move of state 0 leads to 1. -/
def chain_succs : Fin 3 → List (Fin 3) := ![[1], [2], []]

/-- Stored `num_successors` fields of the chain graph, matching the
successor list lengths. -/
def chain_nsucc : Fin 3 → Nat := ![1, 1, 0]

/-- Stored predecessor lists of the chain graph, holding each predecessor
once per move. -/
def chain_preds : Fin 3 → List (Fin 3) := ![[], [0], [1]]

/-- Phase 3 results of the chain graph: only the terminal is resolved. -/
def chain_init : Fin 3 → Result := ![Result.UNKNOWN, Result.UNKNOWN, Result.LOSS]

end Bobail


namespace Bobail

/-! ## General helper lemmas -/

theorem testBit_add_mul_two_pow (a b k i : Nat) (h : a < 2 ^ k) :
    (a + b * 2 ^ k).testBit i = if k ≤ i then b.testBit (i - k) else a.testBit i := by
  rcases le_or_lt k i with hk | hk
  · rw [if_pos hk, Nat.testBit_to_div_mod, Nat.testBit_to_div_mod]
    have h2 : (2 : Nat) ^ i = 2 ^ k * 2 ^ (i - k) := by
      rw [← pow_add]
      congr 1
      omega
    rw [h2, ← Nat.div_div_eq_div_mul]
    have h3 : (a + b * 2 ^ k) / 2 ^ k = b := by
      rw [Nat.add_mul_div_right _ _ (Nat.two_pow_pos k), Nat.div_eq_of_lt h, Nat.zero_add]
    rw [h3]
  · have hni : ¬ k ≤ i := by omega
    rw [if_neg hni, Nat.testBit_to_div_mod, Nat.testBit_to_div_mod]
    have hk2 : k = k - i - 1 + 1 + i := by omega
    have h2 : b * 2 ^ k = 2 * (b * 2 ^ (k - i - 1)) * 2 ^ i := by
      calc b * 2 ^ k = b * 2 ^ (k - i - 1 + 1 + i) := by rw [← hk2]
        _ = 2 * (b * 2 ^ (k - i - 1)) * 2 ^ i := by ring
    rw [h2, Nat.add_mul_div_right _ _ (Nat.two_pow_pos i), Nat.mul_comm 2 (b * 2 ^ (k - i - 1)),
      Nat.add_mul_mod_self_right]

theorem lor_shiftLeft_eq_add (a b k : Nat) (h : a < 2 ^ k) :
    a ||| (b <<< k) = a + b * 2 ^ k := by
  apply Nat.eq_of_testBit_eq
  intro i
  rw [Nat.testBit_lor, Nat.testBit_shiftLeft, testBit_add_mul_two_pow a b k i h]
  rcases le_or_lt k i with hk | hk
  · rw [if_pos hk]
    have ha : a.testBit i = false :=
      Nat.testBit_eq_false_of_lt (lt_of_lt_of_le h (Nat.pow_le_pow_right (by omega) hk))
    simp [ha, hk, ge_iff_le]
  · have hni : ¬ k ≤ i := by omega
    rw [if_neg hni]
    have hge : ¬ i ≥ k := by omega
    simp [hge]

/-- `pack_state` written additively, valid when the fields stay inside their
bit ranges. -/
theorem pack_state_eq_add (s : State)
    (hw : s.white_pawns < 2 ^ 25) (hb : s.black_pawns < 2 ^ 25)
    (hq : s.bobail_sq < 2 ^ 5) :
    pack_state s = s.white_pawns + s.black_pawns * 2 ^ 25 + s.bobail_sq * 2 ^ 50 +
      (if s.white_to_move then 1 else 0) * 2 ^ 55 := by
  unfold pack_state
  have h1 : s.white_pawns ||| (s.black_pawns <<< 25) =
      s.white_pawns + s.black_pawns * 2 ^ 25 := lor_shiftLeft_eq_add _ _ _ hw
  rw [h1]
  have hb1 : s.white_pawns + s.black_pawns * 2 ^ 25 < 2 ^ 50 := by
    have e25 : (2 : Nat) ^ 25 = 33554432 := by norm_num
    have e50 : (2 : Nat) ^ 50 = 1125899906842624 := by norm_num
    rw [e25] at hw hb ⊢
    rw [e50]
    nlinarith
  have h2 := lor_shiftLeft_eq_add (s.white_pawns + s.black_pawns * 2 ^ 25) s.bobail_sq 50 hb1
  rw [h2]
  have hb2 : s.white_pawns + s.black_pawns * 2 ^ 25 + s.bobail_sq * 2 ^ 50 < 2 ^ 55 := by
    have e25 : (2 : Nat) ^ 25 = 33554432 := by norm_num
    have e5 : (2 : Nat) ^ 5 = 32 := by norm_num
    have e50 : (2 : Nat) ^ 50 = 1125899906842624 := by norm_num
    have e55 : (2 : Nat) ^ 55 = 36028797018963968 := by norm_num
    rw [e25] at hw hb
    rw [e5] at hq
    rw [e25, e50, e55]
    nlinarith
  exact lor_shiftLeft_eq_add _ _ 55 hb2

end Bobail

namespace Bobail

/-- Round trip of the packed layout, valid when the fields stay inside
their bit ranges. -/
theorem unpack_state_pack_state (s : State)
    (hw : s.white_pawns < 2 ^ 25) (hb : s.black_pawns < 2 ^ 25)
    (hq : s.bobail_sq < 2 ^ 5) :
    unpack_state (pack_state s) = s := by
  obtain ⟨w, b, q, t⟩ := s
  rw [pack_state_eq_add _ hw hb hq]
  simp only at hw hb hq
  have e1 : (0x1FFFFFF : Nat) = 2 ^ 25 - 1 := by norm_num
  have e2 : (0x1F : Nat) = 2 ^ 5 - 1 := by norm_num
  cases t
  · rw [show (if (false : Bool) = true then (1 : Nat) else 0) = 0 from rfl]
    simp only [unpack_state, State.mk.injEq, Nat.shiftRight_eq_div_pow]
    rw [e1, Nat.and_pow_two_sub_one_eq_mod, Nat.and_pow_two_sub_one_eq_mod,
      e2, Nat.and_pow_two_sub_one_eq_mod,
      show (w + b * 2 ^ 25 + q * 2 ^ 50 + 0 * 2 ^ 55) / 2 ^ 55 &&& 1 =
        (w + b * 2 ^ 25 + q * 2 ^ 50 + 0 * 2 ^ 55) / 2 ^ 55 % 2 ^ 1 from
        Nat.and_pow_two_sub_one_eq_mod _ 1]
    refine ⟨by omega, by omega, by omega, ?_⟩
    rw [show (w + b * 2 ^ 25 + q * 2 ^ 50 + 0 * 2 ^ 55) / 2 ^ 55 % 2 ^ 1 = 0 by omega]
    rfl
  · rw [show (if (true : Bool) = true then (1 : Nat) else 0) = 1 from rfl]
    simp only [unpack_state, State.mk.injEq, Nat.shiftRight_eq_div_pow]
    rw [e1, Nat.and_pow_two_sub_one_eq_mod, Nat.and_pow_two_sub_one_eq_mod,
      e2, Nat.and_pow_two_sub_one_eq_mod,
      show (w + b * 2 ^ 25 + q * 2 ^ 50 + 1 * 2 ^ 55) / 2 ^ 55 &&& 1 =
        (w + b * 2 ^ 25 + q * 2 ^ 50 + 1 * 2 ^ 55) / 2 ^ 55 % 2 ^ 1 from
        Nat.and_pow_two_sub_one_eq_mod _ 1]
    refine ⟨by omega, by omega, by omega, ?_⟩
    rw [show (w + b * 2 ^ 25 + q * 2 ^ 50 + 1 * 2 ^ 55) / 2 ^ 55 % 2 ^ 1 = 1 by omega]
    rfl

end Bobail

namespace Bobail

/-- C9 counterexample: the claim quantifies over every state, but the
source packs the 32-bit pawn fields unmasked, so a `State` whose
`white_pawns` uses bit 25 (representable in the C++ `uint32_t` field) does
not survive the round trip: the bit lands in the black-pawn range of the
layout and unpacking returns a different state. -/
theorem pack_unpack_cex :
    unpack_state (pack_state
      { white_pawns := 2 ^ 25, black_pawns := 0, bobail_sq := 0, white_to_move := false }) ≠
      { white_pawns := 2 ^ 25, black_pawns := 0, bobail_sq := 0, white_to_move := false } := by
  decide

/-- C9 (amended): for every state whose pawn bitboards fit in 25 bits and
whose bobail square fits in 5 bits — which includes every state of the
5x5 board — packing into the 64-bit layout and unpacking returns the
original state. -/
theorem pack_unpack_roundtrip (s : State)
    (hw : s.white_pawns < 2 ^ 25) (hb : s.black_pawns < 2 ^ 25)
    (hq : s.bobail_sq < 2 ^ 5) :
    unpack_state (pack_state s) = s :=
  unpack_state_pack_state s hw hb hq

/-- C9 witness: the round trip theorem applied to the starting position. -/
theorem pack_unpack_roundtrip_witness :
    starting_position.white_pawns < 2 ^ 25 ∧
    starting_position.black_pawns < 2 ^ 25 ∧
    starting_position.bobail_sq < 2 ^ 5 ∧
    unpack_state (pack_state starting_position) = starting_position :=
  ⟨by decide, by decide, by decide,
    pack_unpack_roundtrip starting_position (by decide) (by decide) (by decide)⟩

end Bobail



namespace Bobail

/-- C10: `get_result` is total at the public interface: a state whose
canonical packed form has no `packed_to_id` entry, or whose id has no
`states` entry, yields UNKNOWN rather than an error. -/
theorem get_result_total (db : SolvedDB) (s : State) :
    (db.packed_to_id (pack_state (canonicalize s).1) = none →
      get_result db s = Result.UNKNOWN) ∧
    (∀ id, db.packed_to_id (pack_state (canonicalize s).1) = some id →
      db.state_info id = none → get_result db s = Result.UNKNOWN) := by
  constructor
  · intro h
    unfold get_result get_state_id
    rw [h]
  · intro id h1 h2
    unfold get_result get_state_id
    rw [h1]
    simp only
    rw [h2]

/-- C10 witness: `get_result` on an empty database, and on a database with
a dangling `packed_to_id` entry, both evaluated at the starting position. -/
theorem get_result_total_witness :
    get_result { packed_to_id := fun _ => none, state_info := fun _ => none }
      starting_position = Result.UNKNOWN ∧
    get_result { packed_to_id := fun _ => some 0, state_info := fun _ => none }
      starting_position = Result.UNKNOWN :=
  ⟨(get_result_total { packed_to_id := fun _ => none, state_info := fun _ => none }
      starting_position).1 rfl,
   (get_result_total { packed_to_id := fun _ => some 0, state_info := fun _ => none }
      starting_position).2 0 rfl rfl⟩

/-- C8: `solve()` on a database whose persisted phase is COMPLETE matches
none of the four phase branches, so for every choice of phase bodies and
metadata writer the engine state is returned unchanged together with
success; in particular no phase runs and nothing is written. -/
theorem solve_complete_noop {α : Type}
    (enumerate build_preds mark_terms propagate : α → α)
    (save_meta : SolvePhaseDB → α → α) (db : α) :
    solve_dispatch enumerate build_preds mark_terms propagate save_meta
      { phase := SolvePhaseDB.COMPLETE, db := db } =
      ({ phase := SolvePhaseDB.COMPLETE, db := db }, true) := rfl

/-- C4: the source persists a batch with two separate writes — the batch
write (new `states`, `packed_to_id` and `queue` entries) and then
`save_metadata` (among others `queue_head`).  On the concrete instance
with one new state, the middle snapshot of the commit sequence — what a
crash between the two writes leaves on disk — already holds the new id, its
`packed_to_id` entry and its queue append, while `queue_head` still has its
pre-batch value, so the batch does not commit atomically with the
`queue_head` advance. -/
theorem enum_commit_not_atomic :
    enum_commit_snapshots enum_db0
        [] [(0, ⟨42, Result.UNKNOWN, 0, 0⟩)] [(42, 0)] [(0, 0)] 1 1 1 =
      [enum_db0,
       apply_enum_batch enum_db0 [] [(0, ⟨42, Result.UNKNOWN, 0, 0⟩)] [(42, 0)] [(0, 0)],
       apply_save_metadata
         (apply_enum_batch enum_db0 [] [(0, ⟨42, Result.UNKNOWN, 0, 0⟩)] [(42, 0)] [(0, 0)])
         1 1 1] ∧
    (apply_enum_batch enum_db0 [] [(0, ⟨42, Result.UNKNOWN, 0, 0⟩)] [(42, 0)] [(0, 0)]).states 0 =
      some ⟨42, Result.UNKNOWN, 0, 0⟩ ∧
    (apply_enum_batch enum_db0 [] [(0, ⟨42, Result.UNKNOWN, 0, 0⟩)] [(42, 0)] [(0, 0)]).packed_to_id 42 =
      some 0 ∧
    (apply_enum_batch enum_db0 [] [(0, ⟨42, Result.UNKNOWN, 0, 0⟩)] [(42, 0)] [(0, 0)]).queue 0 =
      some 0 ∧
    (apply_enum_batch enum_db0 [] [(0, ⟨42, Result.UNKNOWN, 0, 0⟩)] [(42, 0)] [(0, 0)]).meta_queue_head =
      enum_db0.meta_queue_head ∧
    enum_db0.meta_queue_head = 0 ∧
    (apply_save_metadata
      (apply_enum_batch enum_db0 [] [(0, ⟨42, Result.UNKNOWN, 0, 0⟩)] [(42, 0)] [(0, 0)])
      1 1 1).meta_queue_head = 1 :=
  ⟨rfl, rfl, rfl, rfl, rfl, rfl, rfl⟩

end Bobail

namespace Bobail

/-- C5 counterexample: a stored record whose `num_successors` field is 0
although the state (the canonical starting state) has legal moves — the
situation the source comments call a resume bug.  The claim requires
`result = LOSS` whenever the field is 0, but the code repairs the count and
leaves the result unchanged. -/
theorem mark_terminals_cex :
    (mark_terminal_info
        ⟨pack_state canonical_start, Result.UNKNOWN, 0, 0⟩).result ≠ Result.LOSS ∧
    (⟨pack_state canonical_start, Result.UNKNOWN, 0, 0⟩ : StateInfoCompact).num_successors = 0 ∧
    ¬ adapter_lost (unpack_state (pack_state canonical_start)) := by
  refine ⟨by decide, rfl, by decide⟩

/-- C5 (amended): for every stored record whose result is still UNKNOWN,
the marking pass yields WIN exactly on adapter wins for the side to move;
it yields LOSS exactly on adapter losses or on records with
`num_successors = 0` that really have no legal moves; every other record
keeps result UNKNOWN (records with a zero count but nonempty legal moves
get their count repaired instead of being marked LOSS). -/
theorem mark_terminals_spec (info : StateInfoCompact)
    (h : info.result = Result.UNKNOWN) :
    ((mark_terminal_info info).result = Result.WIN ↔
      adapter_won (unpack_state info.packed)) ∧
    ((mark_terminal_info info).result = Result.LOSS ↔
      (adapter_lost (unpack_state info.packed) ∨
       (check_terminal (unpack_state info.packed) = GameResult.ONGOING ∧
        info.num_successors = 0 ∧ generate_moves (unpack_state info.packed) = []))) ∧
    ((mark_terminal_info info).result = Result.UNKNOWN ↔
      (check_terminal (unpack_state info.packed) = GameResult.ONGOING ∧
       ¬(info.num_successors = 0 ∧ generate_moves (unpack_state info.packed) = []))) := by
  have hterm : check_terminal (unpack_state info.packed) = GameResult.WHITE_WINS ∨
      check_terminal (unpack_state info.packed) = GameResult.BLACK_WINS ∨
      check_terminal (unpack_state info.packed) = GameResult.ONGOING := by
    unfold check_terminal
    split
    · exact Or.inl rfl
    · split
      · exact Or.inr (Or.inl rfl)
      · exact Or.inr (Or.inr rfl)
  unfold mark_terminal_info adapter_won adapter_lost
  rcases hterm with hc | hc | hc <;> rw [hc]
  · cases hwtm : (unpack_state info.packed).white_to_move <;>
      simp [hwtm, hc]
  · cases hwtm : (unpack_state info.packed).white_to_move <;>
      simp [hwtm, hc]
  · simp only [hc]
    by_cases hz : info.num_successors = 0
    · by_cases hm : generate_moves (unpack_state info.packed) = []
      · simp [hz, hm, hc]
      · simp [hz, hm, hc, h]
    · simp [hz, hc, h]

/-- C5 witness: the marking theorem applied to the record of the winning
terminal state reached in the Phase 4 counterexample chain. -/
theorem mark_terminals_spec_witness :
    (⟨pack_state win_terminal_state, Result.UNKNOWN, 0, 0⟩ : StateInfoCompact).result =
      Result.UNKNOWN ∧
    ((mark_terminal_info
        ⟨pack_state win_terminal_state, Result.UNKNOWN, 0, 0⟩).result = Result.WIN ↔
      adapter_won (unpack_state (pack_state win_terminal_state))) :=
  ⟨rfl, (mark_terminals_spec ⟨pack_state win_terminal_state, Result.UNKNOWN, 0, 0⟩ rfl).1⟩

end Bobail

namespace Bobail

/-- `add_new_state` preserves the registry invariant when the packed value
is absent. -/
theorem add_new_state_inv (reg : Registry) (p : Nat)
    (hreg : RegistryInv reg) (hp : reg.packed_to_id p = none) :
    RegistryInv (add_new_state reg p) := by
  obtain ⟨h1, h2, h3⟩ := hreg
  refine ⟨?_, ?_, ?_⟩
  · intro id
    by_cases hid : id = reg.num_states
    · subst hid
      simp [add_new_state, Function.update_same]
    · simp only [add_new_state, Function.update_noteq hid]
      rw [h1 id]
      omega
  · intro id info hinfo
    by_cases hid : id = reg.num_states
    · subst hid
      simp only [add_new_state, Function.update_same, Option.some.injEq] at hinfo
      subst hinfo
      simp [add_new_state, Function.update_same]
    · simp only [add_new_state, Function.update_noteq hid] at hinfo
      have := h2 id info hinfo
      have hne : info.packed ≠ p := by
        intro he
        rw [he] at this
        rw [hp] at this
        exact Option.noConfusion this
      simp only [add_new_state, Function.update_noteq hne]
      exact this
  · intro packed id hpid
    by_cases hpk : packed = p
    · subst hpk
      simp only [add_new_state, Function.update_same, Option.some.injEq] at hpid
      subst hpid
      exact ⟨⟨packed, Result.UNKNOWN, 0, 0⟩,
        by simp [add_new_state, Function.update_same], rfl⟩
    · simp only [add_new_state, Function.update_noteq hpk] at hpid
      obtain ⟨info, hinfo, hpacked⟩ := h3 packed id hpid
      have hid : id ≠ reg.num_states := by
        intro he
        have : (reg.states id).isSome := by rw [hinfo]; rfl
        rw [h1 id] at this
        omega
      exact ⟨info, by simp only [add_new_state, Function.update_noteq hid]; exact hinfo, hpacked⟩

/-- Folding `add_new_state` over a duplicate-free list of absent packed
values preserves the registry invariant. -/
theorem foldl_add_new_state_inv (L : List Nat) (reg : Registry)
    (hreg : RegistryInv reg) (hnd : L.Nodup)
    (habs : ∀ p ∈ L, reg.packed_to_id p = none) :
    RegistryInv (L.foldl add_new_state reg) := by
  induction L generalizing reg with
  | nil => exact hreg
  | cons p L ih =>
    have hp : reg.packed_to_id p = none := habs p (List.mem_cons_self p L)
    have hreg1 := add_new_state_inv reg p hreg hp
    refine ih (add_new_state reg p) hreg1 (List.Nodup.of_cons hnd) ?_
    intro q hq
    have hqp : q ≠ p := by
      intro he
      subst he
      exact (List.nodup_cons.mp hnd).1 hq
    simp only [add_new_state, Function.update_noteq hqp]
    exact habs q (List.mem_cons_of_mem p hq)

/-- Every element of `sort_unique l` is an element of `l`, and the result
has no duplicates. -/
theorem sort_unique_mem (l : List Nat) (p : Nat) : p ∈ sort_unique l ↔ p ∈ l := by
  unfold sort_unique
  rw [List.mem_dedup, List.mem_mergeSort]

theorem sort_unique_nodup (l : List Nat) : (sort_unique l).Nodup :=
  List.nodup_dedup _

/-- C6: both state-creating operations preserve the registry invariant —
`get_or_create_state` directly, and the batched creation path of parallel
enumeration under the bloom-filter guarantee that every `definitely_new`
packed value is really absent (bloom negatives are definite within a run). -/
theorem registry_invariant_preserved (reg : Registry) (hreg : RegistryInv reg) :
    (∀ p, RegistryInv (get_or_create_state reg p).1) ∧
    (∀ thread_definitely_new thread_maybe_exists : List (List Nat),
      (∀ p ∈ thread_definitely_new.flatten, reg.packed_to_id p = none) →
      RegistryInv (merge_new_states reg thread_definitely_new thread_maybe_exists)) := by
  constructor
  · intro p
    unfold get_or_create_state
    cases hp : reg.packed_to_id p with
    | some id => exact hreg
    | none => exact add_new_state_inv reg p hreg hp
  · intro dn me hdn
    unfold merge_new_states
    apply foldl_add_new_state_inv
    · exact hreg
    · refine List.Nodup.append (sort_unique_nodup _) ?_ ?_
      · exact List.Nodup.filter _ (List.Nodup.filter _ (sort_unique_nodup _))
      · intro p hp hp2
        have hstep1 : p ∈ List.filter (fun q => decide (q ∉ sort_unique dn.flatten))
            (sort_unique me.flatten) := (List.mem_filter.mp hp2).1
        have hnot : p ∉ sort_unique dn.flatten :=
          of_decide_eq_true (List.mem_filter.mp hstep1).2
        exact hnot hp
    · intro p hp
      rcases List.mem_append.mp hp with hp1 | hp2
      · exact hdn p ((sort_unique_mem _ _).mp hp1)
      · exact of_decide_eq_true (List.mem_filter.mp hp2).2

/-- C6 witness: the fresh registry satisfies the invariant and both
creation paths preserve it on concrete inputs with a duplicate in the
buckets. -/
theorem registry_invariant_witness :
    RegistryInv empty_registry ∧
    RegistryInv (get_or_create_state empty_registry 5).1 ∧
    RegistryInv (merge_new_states empty_registry [[7, 7], [8]] [[7, 9]]) := by
  have h0 : RegistryInv empty_registry := by
    refine ⟨?_, ?_, ?_⟩
    · intro id
      simp [empty_registry]
    · intro id info h
      exact Option.noConfusion h
    · intro packed id h
      exact Option.noConfusion h
  exact ⟨h0, (registry_invariant_preserved empty_registry h0).1 5,
    (registry_invariant_preserved empty_registry h0).2 [[7, 7], [8]] [[7, 9]]
      (fun p _ => rfl)⟩

end Bobail

namespace Bobail

/-- C7 counterexample: on a database where the canonical starting state is
LOSS, the first generated move leads to a WIN child and the last generated
move to a DRAW child, `get_best_move` returns the first move — the one with
the WIN child — although a DRAW-child move exists, because the source loop
returns on the first DRAW-or-WIN child without preferring DRAW. -/
theorem best_move_cex :
    get_result c7_db canonical_start = Result.LOSS ∧
    ({ bobail_to := 16, pawn_from := 24, pawn_to := 6 } : Move) ∈
      generate_moves canonical_start ∧
    get_result c7_db
      (apply_move canonical_start { bobail_to := 16, pawn_from := 24, pawn_to := 6 }) =
      Result.DRAW ∧
    get_best_move c7_db canonical_start =
      { bobail_to := 7, pawn_from := 20, pawn_to := 5 } ∧
    get_result c7_db
      (apply_move canonical_start { bobail_to := 7, pawn_from := 20, pawn_to := 5 }) =
      Result.WIN := by
  refine ⟨by decide, by decide, by decide, by decide, by decide⟩

/-- C7 (amended): for a state whose database result is LOSS and which has
legal moves, `get_best_move` returns the first move in generation order
whose child result is DRAW or WIN when one exists (with no preference of
DRAW over WIN), and the first legal move otherwise. -/
theorem best_move_loss_spec (db : SolvedDB) (s : State)
    (h : get_result db s = Result.LOSS) (m0 : Move) (rest : List Move)
    (hm : generate_moves s = m0 :: rest) :
    get_best_move db s =
      ((generate_moves s).find? fun m =>
        (get_result db (apply_move s m) == Result.DRAW) ||
        (get_result db (apply_move s m) == Result.WIN)).getD m0 := by
  have hpred : (fun m => best_move_cond Result.LOSS (get_result db (apply_move s m))) =
      (fun m => (get_result db (apply_move s m) == Result.DRAW) ||
        (get_result db (apply_move s m) == Result.WIN)) :=
    funext fun m => by cases get_result db (apply_move s m) <;> rfl
  unfold get_best_move
  rw [h, hm]
  simp only
  rw [hpred]
  rcases hf : (m0 :: rest).find? (fun m =>
      (get_result db (apply_move s m) == Result.DRAW) ||
      (get_result db (apply_move s m) == Result.WIN)) with _ | m
  · rfl
  · rfl

/-- C7 witness: the amended theorem applied to the LOSS instance of the
counterexample database. -/
theorem best_move_loss_spec_witness :
    get_result c7_db canonical_start = Result.LOSS ∧
    generate_moves canonical_start =
      { bobail_to := 7, pawn_from := 20, pawn_to := 5 } ::
        (generate_moves canonical_start).tail ∧
    get_best_move c7_db canonical_start =
      ((generate_moves canonical_start).find? fun m =>
        (get_result c7_db (apply_move canonical_start m) == Result.DRAW) ||
        (get_result c7_db (apply_move canonical_start m) == Result.WIN)).getD
        { bobail_to := 7, pawn_from := 20, pawn_to := 5 } :=
  ⟨by decide, by decide,
    best_move_loss_spec c7_db canonical_start (by decide)
      { bobail_to := 7, pawn_from := 20, pawn_to := 5 }
      (generate_moves canonical_start).tail (by decide)⟩

end Bobail

namespace Bobail

theorem unknown_count_update {n : Nat} (res : Fin n → Result) (p : Fin n) (v : Result)
    (hp : res p = Result.UNKNOWN) (hv : v ≠ Result.UNKNOWN) :
    unknown_count (Function.update res p v) + 1 = unknown_count res := by
  classical
  have hset : (Finset.univ.filter fun u => Function.update res p v u = Result.UNKNOWN) =
      (Finset.univ.filter fun u => res u = Result.UNKNOWN).erase p := by
    ext u
    simp only [Finset.mem_filter, Finset.mem_univ, true_and, Finset.mem_erase]
    by_cases hu : u = p
    · subst hu
      simp [Function.update_same, hv]
    · simp [Function.update_noteq hu, hu]
  unfold unknown_count
  rw [hset]
  have hmem : p ∈ Finset.univ.filter fun u => res u = Result.UNKNOWN := by
    simp [hp]
  rw [Finset.card_erase_of_mem hmem]
  have hpos : 0 < (Finset.univ.filter fun u => res u = Result.UNKNOWN).card :=
    Finset.card_pos.mpr ⟨p, hmem⟩
  omega

theorem unknown_count_le {n : Nat} (res : Fin n → Result) : unknown_count res ≤ n := by
  unfold unknown_count
  calc (Finset.univ.filter fun u => res u = Result.UNKNOWN).card
      ≤ (Finset.univ : Finset (Fin n)).card := Finset.card_filter_le _ _
    _ = n := Finset.card_univ.trans (Fintype.card_fin n)

theorem countP_shift {α : Type} [DecidableEq α] (l : List α) (f g : α → Bool) (c : α)
    (hfc : f c = false) (hgc : g c = true)
    (h : ∀ v ∈ l, v ≠ c → g v = f v) :
    l.countP g = l.countP f + l.count c := by
  induction l with
  | nil => rfl
  | cons a l ih =>
    have ih2 := ih fun v hv hvc => h v (List.mem_cons_of_mem a hv) hvc
    rw [List.countP_cons, List.countP_cons, List.count_cons, ih2]
    by_cases hac : a = c
    · subst hac
      simp [hfc, hgc]
      omega
    · have hga := h a (List.mem_cons_self a l) hac
      rw [hga]
      simp [hac]
      omega

theorem step_pred_resolved {n : Nat} (nsucc : Fin n → Nat) (cres : Result)
    (acc : PropState n × List (Fin n)) (p : Fin n)
    (h : acc.1.res p ≠ Result.UNKNOWN) :
    step_pred nsucc cres acc p = acc := by
  unfold step_pred
  rw [if_neg h]

theorem step_pred_loss_unknown {n : Nat} (nsucc : Fin n → Nat)
    (acc : PropState n × List (Fin n)) (p : Fin n)
    (h : acc.1.res p = Result.UNKNOWN) :
    step_pred nsucc Result.LOSS acc p =
      ({ res := Function.update acc.1.res p Result.WIN, ws := acc.1.ws }, acc.2 ++ [p]) := by
  unfold step_pred
  rw [if_pos h]

theorem step_pred_win_threshold {n : Nat} (nsucc : Fin n → Nat)
    (acc : PropState n × List (Fin n)) (p : Fin n)
    (h : acc.1.res p = Result.UNKNOWN) (hw : nsucc p ≤ acc.1.ws p + 1) :
    step_pred nsucc Result.WIN acc p =
      ({ res := Function.update acc.1.res p Result.LOSS
         ws := Function.update acc.1.ws p (acc.1.ws p + 1) }, acc.2 ++ [p]) := by
  unfold step_pred
  rw [if_pos h]
  simp only [if_pos hw]

theorem step_pred_win_below {n : Nat} (nsucc : Fin n → Nat)
    (acc : PropState n × List (Fin n)) (p : Fin n)
    (h : acc.1.res p = Result.UNKNOWN) (hw : ¬ nsucc p ≤ acc.1.ws p + 1) :
    step_pred nsucc Result.WIN acc p =
      ({ res := acc.1.res, ws := Function.update acc.1.ws p (acc.1.ws p + 1) }, acc.2) := by
  unfold step_pred
  rw [if_pos h]
  simp only [if_neg hw]

theorem step_pred_other {n : Nat} (nsucc : Fin n → Nat) (cres : Result)
    (hc1 : cres ≠ Result.WIN) (hc2 : cres ≠ Result.LOSS)
    (acc : PropState n × List (Fin n)) (p : Fin n) :
    step_pred nsucc cres acc p = acc := by
  unfold step_pred
  cases cres with
  | WIN => exact absurd rfl hc1
  | LOSS => exact absurd rfl hc2
  | UNKNOWN => split <;> rfl
  | DRAW => split <;> rfl

end Bobail

namespace Bobail

theorem foldl_step_pred_loss {n : Nat} (nsucc : Fin n → Nat) (P : List (Fin n))
    (st : PropState n) (enq : List (Fin n)) :
    (∀ u, (P.foldl (step_pred nsucc Result.LOSS) (st, enq)).1.res u =
       if st.res u = Result.UNKNOWN ∧ u ∈ P then Result.WIN else st.res u) ∧
    (∀ u, (P.foldl (step_pred nsucc Result.LOSS) (st, enq)).1.ws u = st.ws u) ∧
    (∃ nw, (P.foldl (step_pred nsucc Result.LOSS) (st, enq)).2 = enq ++ nw ∧
       nw.Nodup ∧ ∀ u, u ∈ nw ↔ (st.res u = Result.UNKNOWN ∧ u ∈ P)) := by
  induction P generalizing st enq with
  | nil =>
    refine ⟨fun u => ?_, fun u => rfl, [], (List.append_nil enq).symm, List.nodup_nil, fun u => ?_⟩
    · simp
    · simp
  | cons p P ih =>
    by_cases hp : st.res p = Result.UNKNOWN
    · rw [List.foldl_cons, step_pred_loss_unknown nsucc (st, enq) p hp]
      obtain ⟨ihres, ihws, nw, ihenq, ihnd, ihmem⟩ :=
        ih { res := Function.update st.res p Result.WIN, ws := st.ws } (enq ++ [p])
      refine ⟨fun u => ?_, fun u => ihws u, p :: nw, ?_, ?_, fun u => ?_⟩
      · rw [ihres u]
        by_cases hup : u = p
        · subst hup
          simp [Function.update_same, hp]
        · simp only [Function.update_noteq hup]
          by_cases hu : st.res u = Result.UNKNOWN
          · simp [hu, hup, List.mem_cons]
          · simp [hu]
      · rw [ihenq, List.append_assoc]
        rfl
      · refine List.nodup_cons.mpr ⟨fun hmem => ?_, ihnd⟩
        have h2 := (ihmem p).mp hmem
        simp [Function.update_same] at h2
      · rw [List.mem_cons, ihmem u]
        by_cases hup : u = p
        · subst hup
          simp [Function.update_same, hp, List.mem_cons]
        · simp only [Function.update_noteq hup]
          simp [hup, List.mem_cons]
    · rw [List.foldl_cons, step_pred_resolved nsucc Result.LOSS (st, enq) p hp]
      obtain ⟨ihres, ihws, nw, ihenq, ihnd, ihmem⟩ := ih st enq
      refine ⟨fun u => ?_, ihws, nw, ihenq, ihnd, fun u => ?_⟩
      · rw [ihres u]
        by_cases hu : st.res u = Result.UNKNOWN
        · have hup : u ≠ p := fun he => hp (he ▸ hu)
          simp [hu, hup, List.mem_cons]
        · simp [hu]
      · rw [ihmem u]
        by_cases hu : st.res u = Result.UNKNOWN
        · have hup : u ≠ p := fun he => hp (he ▸ hu)
          simp [hu, hup, List.mem_cons]
        · simp [hu]

end Bobail

namespace Bobail

theorem foldl_step_pred_win {n : Nat} (nsucc : Fin n → Nat) (P : List (Fin n))
    (st : PropState n) (enq : List (Fin n))
    (hlt : ∀ u, st.res u = Result.UNKNOWN → st.ws u < nsucc u) :
    (∀ u, st.res u ≠ Result.UNKNOWN →
       (P.foldl (step_pred nsucc Result.WIN) (st, enq)).1.res u = st.res u ∧
       (P.foldl (step_pred nsucc Result.WIN) (st, enq)).1.ws u = st.ws u) ∧
    (∀ u, st.res u = Result.UNKNOWN →
       (P.foldl (step_pred nsucc Result.WIN) (st, enq)).1.ws u =
         min (st.ws u + P.count u) (nsucc u) ∧
       (P.foldl (step_pred nsucc Result.WIN) (st, enq)).1.res u =
         (if nsucc u ≤ st.ws u + P.count u then Result.LOSS else Result.UNKNOWN)) ∧
    (∃ nw, (P.foldl (step_pred nsucc Result.WIN) (st, enq)).2 = enq ++ nw ∧
       nw.Nodup ∧
       ∀ u, u ∈ nw ↔ (st.res u = Result.UNKNOWN ∧ nsucc u ≤ st.ws u + P.count u)) := by
  induction P generalizing st enq with
  | nil =>
    refine ⟨fun u _ => ⟨rfl, rfl⟩, fun u hu => ?_, [], (List.append_nil enq).symm,
      List.nodup_nil, fun u => ?_⟩
    · have := hlt u hu
      simp only [List.foldl_nil, List.count_nil, Nat.add_zero]
      constructor
      · omega
      · rw [if_neg (by omega)]
        exact hu
    · simp only [List.foldl_nil, List.count_nil, Nat.add_zero, List.not_mem_nil, false_iff]
      intro hcon
      exact absurd (hlt u hcon.1) (by omega)
  | cons p P ih =>
    by_cases hp : st.res p = Result.UNKNOWN
    · by_cases hthr : nsucc p ≤ st.ws p + 1
      · -- threshold reached: p becomes LOSS and is enqueued
        rw [List.foldl_cons, step_pred_win_threshold nsucc (st, enq) p hp hthr]
        have hnp := hlt p hp
        set st1 : PropState n :=
          { res := Function.update st.res p Result.LOSS
            ws := Function.update st.ws p (st.ws p + 1) } with hst1
        have hres1 : ∀ u, u ≠ p → st1.res u = st.res u :=
          fun u hup => Function.update_noteq hup _ _
        have hws1 : ∀ u, u ≠ p → st1.ws u = st.ws u :=
          fun u hup => Function.update_noteq hup _ _
        have hresp : st1.res p = Result.LOSS := Function.update_same _ _ _
        have hwsp : st1.ws p = st.ws p + 1 := Function.update_same _ _ _
        have hlt1 : ∀ u, st1.res u = Result.UNKNOWN → st1.ws u < nsucc u := by
          intro u hu
          by_cases hup : u = p
          · subst hup
            rw [hresp] at hu
            exact absurd hu (by decide)
          · rw [hws1 u hup]
            exact hlt u (by rw [← hres1 u hup]; exact hu)
        obtain ⟨ih1, ih2, nw, ihenq, ihnd, ihmem⟩ := ih st1 (enq ++ [p]) hlt1
        refine ⟨fun u hu => ?_, fun u hu => ?_, p :: nw, ?_, ?_, fun u => ?_⟩
        · have hup : u ≠ p := fun he => hu (he ▸ hp)
          obtain ⟨ha, hb⟩ := ih1 u (by rw [hres1 u hup]; exact hu)
          rw [ha, hb, hres1 u hup, hws1 u hup]
          exact ⟨rfl, rfl⟩
        · by_cases hup : u = p
          · subst hup
            obtain ⟨ha, hb⟩ := ih1 u (by rw [hresp]; decide)
            have hcnt : (u :: P).count u = P.count u + 1 := by
              simp [List.count_cons]
            rw [ha, hb, hresp, hwsp, hcnt]
            refine ⟨by omega, ?_⟩
            rw [if_pos (by omega)]
          · obtain ⟨ha, hb⟩ := ih2 u (by rw [hres1 u hup]; exact hu)
            have hcnt : (p :: P).count u = P.count u := by
              simp [List.count_cons, hup]
            rw [ha, hb, hws1 u hup, hcnt]
            exact ⟨rfl, rfl⟩
        · rw [ihenq, List.append_assoc]
          rfl
        · refine List.nodup_cons.mpr ⟨fun hmem => ?_, ihnd⟩
          have h2 := (ihmem p).mp hmem
          rw [hresp] at h2
          exact absurd h2.1 (by decide)
        · rw [List.mem_cons, ihmem u]
          by_cases hup : u = p
          · subst hup
            have hcnt : (u :: P).count u = P.count u + 1 := by
              simp [List.count_cons]
            rw [hresp, hcnt]
            simp only [eq_self_iff_true, true_or, true_iff]
            exact ⟨hp, by omega⟩
          · have hcnt : (p :: P).count u = P.count u := by
              simp [List.count_cons, hup]
            rw [hres1 u hup, hws1 u hup, hcnt]
            simp [hup]
      · -- below threshold: only the counter advances
        rw [List.foldl_cons, step_pred_win_below nsucc (st, enq) p hp hthr]
        set st1 : PropState n :=
          { res := st.res, ws := Function.update st.ws p (st.ws p + 1) } with hst1
        have hres1 : ∀ u, st1.res u = st.res u := fun u => rfl
        have hws1 : ∀ u, u ≠ p → st1.ws u = st.ws u :=
          fun u hup => Function.update_noteq hup _ _
        have hwsp : st1.ws p = st.ws p + 1 := Function.update_same _ _ _
        have hlt1 : ∀ u, st1.res u = Result.UNKNOWN → st1.ws u < nsucc u := by
          intro u hu
          rw [hres1 u] at hu
          by_cases hup : u = p
          · subst hup
            rw [hwsp]
            omega
          · rw [hws1 u hup]
            exact hlt u hu
        obtain ⟨ih1, ih2, nw, ihenq, ihnd, ihmem⟩ := ih st1 enq hlt1
        refine ⟨fun u hu => ?_, fun u hu => ?_, nw, ihenq, ihnd, fun u => ?_⟩
        · have hup : u ≠ p := fun he => hu (he ▸ hp)
          obtain ⟨ha, hb⟩ := ih1 u (by rw [hres1 u]; exact hu)
          rw [ha, hb, hres1 u, hws1 u hup]
          exact ⟨rfl, rfl⟩
        · by_cases hup : u = p
          · subst hup
            obtain ⟨ha, hb⟩ := ih2 u (by rw [hres1 u]; exact hu)
            have hcnt : (u :: P).count u = P.count u + 1 := by
              simp [List.count_cons]
            rw [ha, hb, hwsp, hcnt]
            constructor
            · congr 1
              omega
            · by_cases hc : nsucc u ≤ st.ws u + (P.count u + 1)
              · rw [if_pos hc, if_pos (by omega)]
              · rw [if_neg hc, if_neg (by omega)]
          · obtain ⟨ha, hb⟩ := ih2 u (by rw [hres1 u]; exact hu)
            have hcnt : (p :: P).count u = P.count u := by
              simp [List.count_cons, hup]
            rw [ha, hb, hws1 u hup, hcnt]
            exact ⟨rfl, rfl⟩
        · rw [ihmem u, hres1 u]
          by_cases hup : u = p
          · subst hup
            have hcnt : (u :: P).count u = P.count u + 1 := by
              simp [List.count_cons]
            rw [hwsp, hcnt]
            constructor
            · intro hcon
              exact ⟨hcon.1, by omega⟩
            · intro hcon
              exact ⟨hcon.1, by omega⟩
          · have hcnt : (p :: P).count u = P.count u := by
              simp [List.count_cons, hup]
            rw [hws1 u hup, hcnt]
    · rw [List.foldl_cons, step_pred_resolved nsucc Result.WIN (st, enq) p hp]
      obtain ⟨ih1, ih2, nw, ihenq, ihnd, ihmem⟩ := ih st enq hlt
      refine ⟨ih1, fun u hu => ?_, nw, ihenq, ihnd, fun u => ?_⟩
      · have hup : u ≠ p := fun he => hp (he ▸ hu)
        have hcnt : (p :: P).count u = P.count u := by
          simp [List.count_cons, hup]
        rw [hcnt]
        exact ih2 u hu
      · rw [ihmem u]
        by_cases hu : st.res u = Result.UNKNOWN
        · have hup : u ≠ p := fun he => hp (he ▸ hu)
          have hcnt : (p :: P).count u = P.count u := by
            simp [List.count_cons, hup]
          rw [hcnt]
        · simp [hu]

end Bobail

namespace Bobail

theorem foldl_step_pred_other {n : Nat} (nsucc : Fin n → Nat) (cres : Result)
    (hc1 : cres ≠ Result.WIN) (hc2 : cres ≠ Result.LOSS) (P : List (Fin n))
    (st : PropState n) (enq : List (Fin n)) :
    P.foldl (step_pred nsucc cres) (st, enq) = (st, enq) := by
  induction P with
  | nil => rfl
  | cons p P ih =>
    rw [List.foldl_cons, step_pred_other nsucc cres hc1 hc2 (st, enq) p, ih]

theorem unknown_count_sub {n : Nat} (res res2 : Fin n → Result) (nw : List (Fin n))
    (hnd : nw.Nodup)
    (hmemU : ∀ u ∈ nw, res u = Result.UNKNOWN)
    (hres2 : ∀ u, res2 u = Result.UNKNOWN ↔ (res u = Result.UNKNOWN ∧ u ∉ nw)) :
    unknown_count res2 + nw.length = unknown_count res := by
  classical
  have hset : (Finset.univ.filter fun u => res2 u = Result.UNKNOWN) =
      (Finset.univ.filter fun u => res u = Result.UNKNOWN) \ nw.toFinset := by
    ext u
    simp only [Finset.mem_filter, Finset.mem_univ, true_and, Finset.mem_sdiff,
      List.mem_toFinset]
    exact hres2 u
  have hsub : nw.toFinset ⊆ Finset.univ.filter fun u => res u = Result.UNKNOWN := by
    intro u hu
    simp only [List.mem_toFinset] at hu
    simp [hmemU u hu]
  unfold unknown_count
  rw [hset, Finset.card_sdiff hsub, List.toFinset_card_of_nodup hnd]
  have hle := Finset.card_le_card hsub
  rw [List.toFinset_card_of_nodup hnd] at hle
  omega


end Bobail

namespace Bobail

theorem wave_inv_step_loss {n : Nat} (succs : Fin n → List (Fin n)) (nsucc : Fin n → Nat)
    (preds : Fin n → List (Fin n)) (initRes : Fin n → Result)
    (hH2 : ∀ u v, (preds v).count u = (succs u).count v)
    (st : PropState n) (c : Fin n) (q : List (Fin n))
    (hc : st.res c = Result.LOSS)
    (hinv : WaveInv succs nsucc initRes st (c :: q)) :
    WaveInv succs nsucc initRes (process_child nsucc preds st c).1
      (q ++ (process_child nsucc preds st c).2) ∧
    unknown_count (process_child nsucc preds st c).1.res +
      (process_child nsucc preds st c).2.length = unknown_count st.res := by
  obtain ⟨hik, hwc, hlc, hnd0, hqr, hqn, hwe, hwl, hld⟩ := hinv
  have hpc : process_child nsucc preds st c =
      (preds c).foldl (step_pred nsucc Result.LOSS) (st, []) := by
    unfold process_child
    rw [hc]
  obtain ⟨hres, hws, nw, henq, hnd, hmem⟩ := foldl_step_pred_loss nsucc (preds c) st []
  rw [hpc]
  set F := (preds c).foldl (step_pred nsucc Result.LOSS) (st, []) with hF
  have henq2 : F.2 = nw := henq
  have hmc : ∀ u, u ∈ preds c ↔ c ∈ succs u := by
    intro u
    rw [← List.count_pos_iff, ← List.count_pos_iff, hH2]
  have hkeep : ∀ u, st.res u ≠ Result.UNKNOWN → F.1.res u = st.res u := by
    intro u hu
    rw [hres u, if_neg fun hcon => hu hcon.1]
  have hnew : ∀ u, st.res u = Result.UNKNOWN → u ∈ preds c → F.1.res u = Result.WIN := by
    intro u hu hup
    rw [hres u, if_pos ⟨hu, hup⟩]
  have hstay : ∀ u, st.res u = Result.UNKNOWN → u ∉ preds c → F.1.res u = st.res u := by
    intro u hu hup
    rw [hres u, if_neg fun hcon => hup hcon.2]
  have hUiff : ∀ u, F.1.res u = Result.UNKNOWN ↔ (st.res u = Result.UNKNOWN ∧ u ∉ nw) := by
    intro u
    constructor
    · intro hFu
      by_cases hu : st.res u = Result.UNKNOWN
      · refine ⟨hu, fun hmemnw => ?_⟩
        obtain ⟨_, hup⟩ := (hmem u).mp hmemnw
        rw [hnew u hu hup] at hFu
        exact Result.noConfusion hFu
      · rw [hkeep u hu] at hFu
        exact absurd hFu hu
    · intro ⟨hu, hnotnw⟩
      have hup : u ∉ preds c := fun hup => hnotnw ((hmem u).mpr ⟨hu, hup⟩)
      rw [hstay u hu hup]
      exact hu
  have hcnt := unknown_count_sub st.res F.1.res nw hnd
    (fun u hu => ((hmem u).mp hu).1) hUiff
  rw [henq2]
  refine ⟨⟨?_, ?_, ?_, ?_, ?_, ?_, ?_, ?_, ?_⟩, hcnt⟩
  · -- init_keep
    intro u hu
    rw [hkeep u (by rw [hik u hu]; exact hu), hik u hu]
  · -- win_char
    intro u hFu
    by_cases hu : st.res u = Result.UNKNOWN
    · by_cases hup : u ∈ preds c
      · right
        refine ⟨c, (hmc u).mp hup, ?_⟩
        rw [hkeep c (by rw [hc]; decide), hc]
      · rw [hstay u hu hup] at hFu
        exact absurd hFu.symm (by rw [hu]; decide)
    · rw [hkeep u hu] at hFu
      rcases hwc u hFu with h | ⟨v, hv, hvl⟩
      · exact Or.inl h
      · right
        refine ⟨v, hv, ?_⟩
        rw [hkeep v (by rw [hvl]; decide), hvl]
  · -- loss_char
    intro u hFu
    by_cases hu : st.res u = Result.UNKNOWN
    · by_cases hup : u ∈ preds c
      · rw [hnew u hu hup] at hFu
        exact Result.noConfusion hFu
      · rw [hstay u hu hup] at hFu
        exact absurd hFu.symm (by rw [hu]; decide)
    · rw [hkeep u hu] at hFu
      rcases hlc u hFu with h | h
      · exact Or.inl h
      · right
        intro v hv
        rw [hkeep v (by rw [h v hv]; decide), h v hv]
  · -- no_draw
    intro u
    by_cases hu : st.res u = Result.UNKNOWN
    · by_cases hup : u ∈ preds c
      · rw [hnew u hu hup]
        decide
      · rw [hstay u hu hup, hu]
        decide
    · rw [hkeep u hu]
      exact hnd0 u
  · -- q_resolved
    intro v hv
    rcases List.mem_append.mp hv with hvq | hvnw
    · have hvres := hqr v (List.mem_cons_of_mem c hvq)
      rw [hkeep v hvres]
      exact hvres
    · obtain ⟨hvU, hvp⟩ := (hmem v).mp hvnw
      rw [hnew v hvU hvp]
      decide
  · -- q_nodup
    refine List.Nodup.append (List.Nodup.of_cons hqn) hnd ?_
    intro v hvq hvnw
    exact hqr v (List.mem_cons_of_mem c hvq) ((hmem v).mp hvnw).1
  · -- ws_eq
    intro u hFu
    obtain ⟨hu, hnotnw⟩ := (hUiff u).mp hFu
    have hup : u ∉ preds c := fun hup => hnotnw ((hmem u).mpr ⟨hu, hup⟩)
    rw [hws u]
    rw [hwe u hu]
    unfold win_done_count
    refine List.countP_congr ?_
    intro v hv
    simp only [Bool.and_eq_true, decide_eq_true_eq]
    constructor
    · intro ⟨hvw, hvq⟩
      have hvc : v ≠ c := by
        intro he
        rw [he, hc] at hvw
        exact Result.noConfusion hvw
      have hvF : F.1.res v = Result.WIN := by
        rw [hkeep v (by rw [hvw]; decide)]
        exact hvw
      refine ⟨hvF, fun hvq2 => ?_⟩
      rcases List.mem_append.mp hvq2 with h2 | h2
      · exact hvq (List.mem_cons_of_mem c h2)
      · exact absurd hvw (by rw [((hmem v).mp h2).1]; decide)
    · intro ⟨hvw, hvq2⟩
      by_cases hvU : st.res v = Result.UNKNOWN
      · by_cases hvp : v ∈ preds c
        · exact absurd (List.mem_append_right q ((hmem v).mpr ⟨hvU, hvp⟩)) hvq2
        · rw [hstay v hvU hvp, hvU] at hvw
          exact Result.noConfusion hvw
      · rw [hkeep v hvU] at hvw
        refine ⟨hvw, fun hvq3 => ?_⟩
        rcases List.mem_cons.mp hvq3 with h3 | h3
        · rw [h3, hc] at hvw
          exact Result.noConfusion hvw
        · exact hvq2 (List.mem_append_left nw h3)
  · -- ws_lt
    intro u hFu
    obtain ⟨hu, _⟩ := (hUiff u).mp hFu
    rw [hws u]
    exact hwl u hu
  · -- loss_done
    intro v hFv
    have hv : st.res v = Result.LOSS := by
      by_cases hvU : st.res v = Result.UNKNOWN
      · by_cases hvp : v ∈ preds c
        · rw [hnew v hvU hvp] at hFv
          exact Result.noConfusion hFv
        · rw [hstay v hvU hvp, hvU] at hFv
          exact Result.noConfusion hFv.symm
      · rw [hkeep v hvU] at hFv
        exact hFv
    by_cases hvc : v = c
    · subst hvc
      right
      intro u hu
      have hup := (hmc u).mpr hu
      by_cases huU : st.res u = Result.UNKNOWN
      · rw [hnew u huU hup]
        decide
      · rw [hkeep u huU]
        exact huU
    · rcases hld v hv with h | h
      · rcases List.mem_cons.mp h with h2 | h2
        · exact absurd h2 hvc
        · exact Or.inl (List.mem_append_left nw h2)
      · right
        intro u hu
        have hures := h u hu
        rw [hkeep u hures]
        exact hures

end Bobail

namespace Bobail

theorem wave_inv_step_win {n : Nat} (succs : Fin n → List (Fin n)) (nsucc : Fin n → Nat)
    (preds : Fin n → List (Fin n)) (initRes : Fin n → Result)
    (hH1 : ∀ u, nsucc u = (succs u).length)
    (hH2 : ∀ u v, (preds v).count u = (succs u).count v)
    (st : PropState n) (c : Fin n) (q : List (Fin n))
    (hc : st.res c = Result.WIN)
    (hinv : WaveInv succs nsucc initRes st (c :: q)) :
    WaveInv succs nsucc initRes (process_child nsucc preds st c).1
      (q ++ (process_child nsucc preds st c).2) ∧
    unknown_count (process_child nsucc preds st c).1.res +
      (process_child nsucc preds st c).2.length = unknown_count st.res := by
  obtain ⟨hik, hwc, hlc, hnd0, hqr, hqn, hwe, hwl, hld⟩ := hinv
  have hpc : process_child nsucc preds st c =
      (preds c).foldl (step_pred nsucc Result.WIN) (st, []) := by
    unfold process_child
    rw [hc]
  obtain ⟨f1, f2, nw, henq, hnd, hmem⟩ := foldl_step_pred_win nsucc (preds c) st [] hwl
  rw [hpc]
  set F := (preds c).foldl (step_pred nsucc Result.WIN) (st, []) with hF
  have henq2 : F.2 = nw := henq
  have hkeep : ∀ u, st.res u ≠ Result.UNKNOWN → F.1.res u = st.res u :=
    fun u hu => (f1 u hu).1
  have hkeepws : ∀ u, st.res u ≠ Result.UNKNOWN → F.1.ws u = st.ws u :=
    fun u hu => (f1 u hu).2
  have hthrres : ∀ u, st.res u = Result.UNKNOWN →
      nsucc u ≤ st.ws u + (preds c).count u → F.1.res u = Result.LOSS := by
    intro u hu hle
    rw [(f2 u hu).2, if_pos hle]
  have hstayres : ∀ u, st.res u = Result.UNKNOWN →
      ¬ nsucc u ≤ st.ws u + (preds c).count u → F.1.res u = Result.UNKNOWN := by
    intro u hu hle
    rw [(f2 u hu).2, if_neg hle]
  have hcnotq : c ∉ q := (List.nodup_cons.mp hqn).1
  have hcnotnw : c ∉ nw := by
    intro hcon
    have := ((hmem c).mp hcon).1
    rw [hc] at this
    exact Result.noConfusion this
  have hcnotq2 : c ∉ q ++ nw := by
    intro hcon
    rcases List.mem_append.mp hcon with h | h
    · exact hcnotq h
    · exact hcnotnw h
  have hFc : F.1.res c = Result.WIN := by
    rw [hkeep c (by rw [hc]; decide)]
    exact hc
  -- the processed-WIN-children count of any state grows by exactly the
  -- multiplicity of c among its successors
  have hshift : ∀ u, win_done_count succs F.1.res (q ++ nw) u =
      win_done_count succs st.res (c :: q) u + (succs u).count c := by
    intro u
    unfold win_done_count
    refine countP_shift (succs u) _ _ c ?_ ?_ ?_
    · simp [List.mem_cons]
    · simp only [Bool.and_eq_true, decide_eq_true_eq]
      exact ⟨hFc, hcnotq2⟩
    · intro v hv hvc
      by_cases hvU : st.res v = Result.UNKNOWN
      · have hP0 : (decide (st.res v = Result.WIN) && decide (v ∉ c :: q)) = false := by
          simp [hvU]
        have hP1 : (decide (F.1.res v = Result.WIN) && decide (v ∉ q ++ nw)) = false := by
          by_cases hth : nsucc v ≤ st.ws v + (preds c).count v
          · simp [hthrres v hvU hth]
          · simp [hstayres v hvU hth]
        rw [hP0, hP1]
      · rw [hkeep v hvU]
        by_cases hvw : st.res v = Result.WIN
        · have hmq : v ∉ q ++ nw ↔ v ∉ c :: q := by
            constructor
            · intro h2 h3
              rcases List.mem_cons.mp h3 with h4 | h4
              · exact hvc h4
              · exact h2 (List.mem_append_left nw h4)
            · intro h2 h3
              rcases List.mem_append.mp h3 with h4 | h4
              · exact h2 (List.mem_cons_of_mem c h4)
              · exact hvU ((hmem v).mp h4).1
          simp only [hvw]
          by_cases h5 : v ∈ q ++ nw
          · have h6 : v ∈ c :: q := by
              by_contra h7
              exact (hmq.mpr h7) h5
            simp [h5, h6]
          · have h6 : v ∉ c :: q := hmq.mp h5
            simp [h5, h6]
        · simp [hvw]
  have hUiff : ∀ u, F.1.res u = Result.UNKNOWN ↔ (st.res u = Result.UNKNOWN ∧ u ∉ nw) := by
    intro u
    constructor
    · intro hFu
      by_cases hu : st.res u = Result.UNKNOWN
      · refine ⟨hu, fun hmemnw => ?_⟩
        have hth := ((hmem u).mp hmemnw).2
        rw [hthrres u hu hth] at hFu
        exact Result.noConfusion hFu
      · rw [hkeep u hu] at hFu
        exact absurd hFu hu
    · intro ⟨hu, hnotnw⟩
      have hth : ¬ nsucc u ≤ st.ws u + (preds c).count u :=
        fun hth => hnotnw ((hmem u).mpr ⟨hu, hth⟩)
      exact hstayres u hu hth
  have hcntsub := unknown_count_sub st.res F.1.res nw hnd
    (fun u hu => ((hmem u).mp hu).1) hUiff
  rw [henq2]
  refine ⟨⟨?_, ?_, ?_, ?_, ?_, ?_, ?_, ?_, ?_⟩, hcntsub⟩
  · -- init_keep
    intro u hu
    rw [hkeep u (by rw [hik u hu]; exact hu), hik u hu]
  · -- win_char
    intro u hFu
    by_cases hu : st.res u = Result.UNKNOWN
    · by_cases hth : nsucc u ≤ st.ws u + (preds c).count u
      · rw [hthrres u hu hth] at hFu
        exact Result.noConfusion hFu
      · rw [hstayres u hu hth] at hFu
        exact Result.noConfusion hFu
    · rw [hkeep u hu] at hFu
      rcases hwc u hFu with h | ⟨v, hv, hvl⟩
      · exact Or.inl h
      · right
        refine ⟨v, hv, ?_⟩
        rw [hkeep v (by rw [hvl]; decide), hvl]
  · -- loss_char
    intro u hFu
    by_cases hu : st.res u = Result.UNKNOWN
    · -- newly resolved LOSS via the counter threshold: all successors WIN
      have hth : nsucc u ≤ st.ws u + (preds c).count u := by
        by_contra hth
        rw [hstayres u hu hth] at hFu
        exact Result.noConfusion hFu
      right
      have hcount : nsucc u ≤ win_done_count succs F.1.res (q ++ nw) u := by
        rw [hshift u, ← hwe u hu, ← hH2 u c]
        exact hth
      have hlen : win_done_count succs F.1.res (q ++ nw) u = (succs u).length := by
        have hle := List.countP_le_length
          (fun v => decide (F.1.res v = Result.WIN) && decide (v ∉ q ++ nw)) (l := succs u)
        unfold win_done_count at hcount ⊢
        rw [hH1 u] at hcount
        omega
      intro v hv
      have hall := List.countP_eq_length.mp hlen v hv
      simp only [Bool.and_eq_true, decide_eq_true_eq] at hall
      exact hall.1
    · rw [hkeep u hu] at hFu
      rcases hlc u hFu with h | h
      · exact Or.inl h
      · right
        intro v hv
        rw [hkeep v (by rw [h v hv]; decide), h v hv]
  · -- no_draw
    intro u
    by_cases hu : st.res u = Result.UNKNOWN
    · by_cases hth : nsucc u ≤ st.ws u + (preds c).count u
      · rw [hthrres u hu hth]
        decide
      · rw [hstayres u hu hth]
        decide
    · rw [hkeep u hu]
      exact hnd0 u
  · -- q_resolved
    intro v hv
    rcases List.mem_append.mp hv with hvq | hvnw
    · have hvres := hqr v (List.mem_cons_of_mem c hvq)
      rw [hkeep v hvres]
      exact hvres
    · obtain ⟨hvU, hvth⟩ := (hmem v).mp hvnw
      rw [hthrres v hvU hvth]
      decide
  · -- q_nodup
    refine List.Nodup.append (List.Nodup.of_cons hqn) hnd ?_
    intro v hvq hvnw
    exact hqr v (List.mem_cons_of_mem c hvq) ((hmem v).mp hvnw).1
  · -- ws_eq
    intro u hFu
    obtain ⟨hu, hnotnw⟩ := (hUiff u).mp hFu
    have hth : ¬ nsucc u ≤ st.ws u + (preds c).count u :=
      fun hth => hnotnw ((hmem u).mpr ⟨hu, hth⟩)
    have hwsF : F.1.ws u = st.ws u + (preds c).count u := by
      rw [(f2 u hu).1]
      omega
    rw [hwsF, hshift u, ← hwe u hu, ← hH2 u c]
  · -- ws_lt
    intro u hFu
    obtain ⟨hu, hnotnw⟩ := (hUiff u).mp hFu
    have hth : ¬ nsucc u ≤ st.ws u + (preds c).count u :=
      fun hth => hnotnw ((hmem u).mpr ⟨hu, hth⟩)
    have hwsF : F.1.ws u = st.ws u + (preds c).count u := by
      rw [(f2 u hu).1]
      omega
    rw [hwsF]
    omega
  · -- loss_done
    intro v hFv
    by_cases hvU : st.res v = Result.UNKNOWN
    · have hth : nsucc v ≤ st.ws v + (preds c).count v := by
        by_contra hth
        rw [hstayres v hvU hth] at hFv
        exact Result.noConfusion hFv
      exact Or.inl (List.mem_append_right q ((hmem v).mpr ⟨hvU, hth⟩))
    · rw [hkeep v hvU] at hFv
      rcases hld v hFv with h | h
      · rcases List.mem_cons.mp h with h2 | h2
        · rw [h2, hc] at hFv
          exact Result.noConfusion hFv
        · exact Or.inl (List.mem_append_left nw h2)
      · right
        intro u hu
        have hures := h u hu
        rw [hkeep u hures]
        exact hures

end Bobail

namespace Bobail

theorem wave_inv_run {n : Nat} (succs : Fin n → List (Fin n)) (nsucc : Fin n → Nat)
    (preds : Fin n → List (Fin n)) (initRes : Fin n → Result)
    (hH1 : ∀ u, nsucc u = (succs u).length)
    (hH2 : ∀ u v, (preds v).count u = (succs u).count v)
    (fuel : Nat) (st : PropState n) (q : List (Fin n))
    (hinv : WaveInv succs nsucc initRes st q)
    (hfuel : q.length + 2 * unknown_count st.res ≤ fuel) :
    WaveInv succs nsucc initRes (wave nsucc preds fuel st q) [] := by
  induction fuel generalizing st q with
  | zero =>
    have hq : q = [] := List.length_eq_zero.mp (by omega)
    subst hq
    exact hinv
  | succ fuel ih =>
    cases q with
    | nil => exact hinv
    | cons c q =>
      have hcres := hinv.q_resolved c (List.mem_cons_self c q)
      have hcnd := hinv.no_draw c
      have hstep : WaveInv succs nsucc initRes (process_child nsucc preds st c).1
          (q ++ (process_child nsucc preds st c).2) ∧
          unknown_count (process_child nsucc preds st c).1.res +
            (process_child nsucc preds st c).2.length = unknown_count st.res := by
        cases hc : st.res c with
        | UNKNOWN => exact absurd hc hcres
        | WIN => exact wave_inv_step_win succs nsucc preds initRes hH1 hH2 st c q hc hinv
        | LOSS => exact wave_inv_step_loss succs nsucc preds initRes hH2 st c q hc hinv
        | DRAW => exact absurd hc hcnd
      have hwave : wave nsucc preds (fuel + 1) st (c :: q) =
          wave nsucc preds fuel (process_child nsucc preds st c).1
            (q ++ (process_child nsucc preds st c).2) := rfl
      rw [hwave]
      refine ih (process_child nsucc preds st c).1 (q ++ (process_child nsucc preds st c).2)
        hstep.1 ?_
      have hlen : (q ++ (process_child nsucc preds st c).2).length =
          q.length + (process_child nsucc preds st c).2.length := List.length_append _ _
      have := hstep.2
      simp only [List.length_cons] at hfuel
      omega

theorem mem_seed_queue {n : Nat} (initRes : Fin n → Result) (v : Fin n) :
    v ∈ seed_queue initRes ↔ initRes v ≠ Result.UNKNOWN := by
  unfold seed_queue
  rw [List.mem_filter]
  simp [List.mem_finRange]

theorem wave_inv_init {n : Nat} (succs : Fin n → List (Fin n)) (nsucc : Fin n → Nat)
    (initRes : Fin n → Result)
    (hH4 : ∀ u, initRes u = Result.UNKNOWN → nsucc u ≠ 0)
    (hH6 : ∀ u, initRes u ≠ Result.DRAW) :
    WaveInv succs nsucc initRes { res := initRes, ws := fun _ => 0 }
      (seed_queue initRes) := by
  refine ⟨fun u hu => rfl, fun u hu => Or.inl hu, fun u hu => Or.inl hu, hH6,
    fun c hc => (mem_seed_queue initRes c).mp hc, ?_, fun u hu => ?_, fun u hu => ?_,
    fun v hv => Or.inl ((mem_seed_queue initRes v).mpr (by
      have hv2 : initRes v = Result.LOSS := hv
      rw [hv2]
      decide))⟩
  · exact List.Nodup.filter _ (List.nodup_finRange n)
  · unfold win_done_count
    symm
    rw [List.countP_eq_zero]
    intro v hv
    simp only [Bool.and_eq_true, decide_eq_true_eq, not_and]
    intro hvw hnq
    exact hnq ((mem_seed_queue initRes v).mpr (by rw [hvw]; decide))
  · show 0 < nsucc u
    have := hH4 u hu
    omega


end Bobail

namespace Bobail


end Bobail

namespace Bobail

/-- C1: the claimed retrograde characterization is refuted by the program.
On the stored chain graph 0 → 1 → 2 (state 2 a Phase 3 LOSS terminal;
stored `num_successors` fields and predecessor lists exactly matching the
successor lists, as the middle conjuncts check), the single Phase 4 worker
pops state 2 and marks state 1 WIN, but buffers both the queue append and
the record update in `local_batch` (2 puts, below `LOCAL_BATCH_SIZE =
1000`, so no flush); the next pop reads the still-uncommitted queue entry
through `db_->Get`, misses, and skips the index; the worker then passes
the tail and exits.  The propagation of state 1 to state 0 therefore never
runs, and the draw pass finalizes state 0 as DRAW — although its only
legal move leads to the WIN state 1, so the claim requires LOSS.  The last
conjunct shows this is not a fuel artifact: a much larger fuel gives the
same results. -/
theorem phase4_drops_propagation :
    run_phase4_buffered 8 chain_nsucc chain_preds chain_init 2 = Result.LOSS ∧
    run_phase4_buffered 8 chain_nsucc chain_preds chain_init 1 = Result.WIN ∧
    run_phase4_buffered 8 chain_nsucc chain_preds chain_init 0 = Result.DRAW ∧
    (∀ u : Fin 3, chain_nsucc u = (chain_succs u).length) ∧
    (∀ u v : Fin 3, (chain_preds v).count u = (chain_succs u).count v) ∧
    (∀ u : Fin 3, chain_init u ≠ Result.DRAW) ∧
    (∀ u : Fin 3, chain_init u = Result.UNKNOWN → chain_nsucc u ≠ 0) ∧
    (∀ v ∈ chain_succs 0,
      run_phase4_buffered 8 chain_nsucc chain_preds chain_init v = Result.WIN) ∧
    run_phase4_buffered 8 chain_nsucc chain_preds chain_init 0 ≠ Result.LOSS ∧
    (∀ u : Fin 3, run_phase4_buffered 100 chain_nsucc chain_preds chain_init u =
      run_phase4_buffered 8 chain_nsucc chain_preds chain_init u) := by
  decide

end Bobail

namespace Bobail

theorem process_child_ws_bound {n : Nat} (nsucc : Fin n → Nat)
    (preds : Fin n → List (Fin n)) (st : PropState n) (c : Fin n)
    (hlt : ∀ u, st.res u = Result.UNKNOWN → st.ws u < nsucc u)
    (hle : ∀ u, st.ws u ≤ nsucc u) :
    (∀ u, (process_child nsucc preds st c).1.ws u ≤ nsucc u) ∧
    (∀ u, (process_child nsucc preds st c).1.res u = Result.UNKNOWN →
      (process_child nsucc preds st c).1.ws u < nsucc u) := by
  unfold process_child
  cases hc : st.res c with
  | UNKNOWN =>
    rw [foldl_step_pred_other nsucc Result.UNKNOWN (by decide) (by decide) (preds c) st []]
    exact ⟨hle, hlt⟩
  | DRAW =>
    rw [foldl_step_pred_other nsucc Result.DRAW (by decide) (by decide) (preds c) st []]
    exact ⟨hle, hlt⟩
  | LOSS =>
    obtain ⟨hres, hws, nw, henq, hnd, hmem⟩ := foldl_step_pred_loss nsucc (preds c) st []
    constructor
    · intro u
      rw [hws u]
      exact hle u
    · intro u hu
      rw [hws u]
      rw [hres u] at hu
      apply hlt u
      by_cases hcon : st.res u = Result.UNKNOWN ∧ u ∈ preds c
      · rw [if_pos hcon] at hu
        exact Result.noConfusion hu
      · rw [if_neg hcon] at hu
        exact hu
  | WIN =>
    obtain ⟨f1, f2, nw, henq, hnd, hmem⟩ := foldl_step_pred_win nsucc (preds c) st [] hlt
    constructor
    · intro u
      by_cases hu : st.res u = Result.UNKNOWN
      · rw [(f2 u hu).1]
        omega
      · rw [(f1 u hu).2]
        exact hle u
    · intro u hu
      by_cases hu0 : st.res u = Result.UNKNOWN
      · have hth : ¬ nsucc u ≤ st.ws u + (preds c).count u := by
          intro hth
          rw [(f2 u hu0).2, if_pos hth] at hu
          exact Result.noConfusion hu
        rw [(f2 u hu0).1]
        omega
      · rw [(f1 u hu0).1] at hu
        exact absurd hu hu0

/-- C3: the winning-successor counter never exceeds the stored move count.
Given the Phase 3 postcondition (`winning_succs` starts at 0 — or, more
generally, below `num_successors` on every unresolved state and at most
`num_successors` everywhere), processing one dequeued child — which
performs one guarded increment per predecessor-list entry — preserves both
bounds, and an entire Phase 4 wave run keeps `winning_succs ≤
num_successors` for every state. -/
theorem winning_succs_le_num_successors {n : Nat} (nsucc : Fin n → Nat)
    (preds : Fin n → List (Fin n)) (st : PropState n)
    (hlt : ∀ u, st.res u = Result.UNKNOWN → st.ws u < nsucc u)
    (hle : ∀ u, st.ws u ≤ nsucc u) :
    (∀ c, (∀ u, (process_child nsucc preds st c).1.ws u ≤ nsucc u) ∧
      (∀ u, (process_child nsucc preds st c).1.res u = Result.UNKNOWN →
        (process_child nsucc preds st c).1.ws u < nsucc u)) ∧
    (∀ fuel q u, (wave nsucc preds fuel st q).ws u ≤ nsucc u) := by
  constructor
  · intro c
    exact process_child_ws_bound nsucc preds st c hlt hle
  · intro fuel
    induction fuel generalizing st with
    | zero =>
      intro q u
      cases q with
      | nil => exact hle u
      | cons c q => exact hle u
    | succ fuel ih =>
      intro q u
      cases q with
      | nil => exact hle u
      | cons c q =>
        have hstep := process_child_ws_bound nsucc preds st c hlt hle
        have hwave : wave nsucc preds (fuel + 1) st (c :: q) =
            wave nsucc preds fuel (process_child nsucc preds st c).1
              (q ++ (process_child nsucc preds st c).2) := rfl
        rw [hwave]
        exact ih (process_child nsucc preds st c).1 hstep.2 hstep.1
          (q ++ (process_child nsucc preds st c).2) u

/-- C3 witness: the bound theorem applied to a concrete two-state wave
state. -/
theorem winning_succs_le_witness :
    (∀ u, c3w_st.res u = Result.UNKNOWN → c3w_st.ws u < c3w_nsucc u) ∧
    (∀ u, c3w_st.ws u ≤ c3w_nsucc u) ∧
    (∀ c, (∀ u, (process_child c3w_nsucc c3w_preds c3w_st c).1.ws u ≤ c3w_nsucc u) ∧
      (∀ u, (process_child c3w_nsucc c3w_preds c3w_st c).1.res u = Result.UNKNOWN →
        (process_child c3w_nsucc c3w_preds c3w_st c).1.ws u < c3w_nsucc u)) ∧
    (∀ fuel q u, (wave c3w_nsucc c3w_preds fuel c3w_st q).ws u ≤ c3w_nsucc u) :=
  ⟨by decide, by decide,
    (winning_succs_le_num_successors c3w_nsucc c3w_preds c3w_st (by decide) (by decide)).1,
    (winning_succs_le_num_successors c3w_nsucc c3w_preds c3w_st (by decide) (by decide)).2⟩

end Bobail

namespace Bobail

set_option maxRecDepth 1000000 in
set_option maxHeartbeats 16000000 in
/-- C2: the Phase 2 worker buffer is not deduplicated.  The canonical
starting state (stored id 0, processed by a worker) has two distinct legal
moves — `{7, 20, 5}` and `{7, 24, 9}` — whose successors canonicalize to
the same packed value; with the complete identity cache the buffer entry
the worker would flush under that successor's compound key contains the
state's id twice, not at most once. -/
theorem phase2_duplicate_in_flush :
    ({ bobail_to := 7, pawn_from := 20, pawn_to := 5 } : Move) ∈
      generate_moves canonical_start ∧
    ({ bobail_to := 7, pawn_from := 24, pawn_to := 9 } : Move) ∈
      generate_moves canonical_start ∧
    ({ bobail_to := 7, pawn_from := 20, pawn_to := 5 } : Move) ≠
      { bobail_to := 7, pawn_from := 24, pawn_to := 9 } ∧
    pack_state (canonicalize (apply_move canonical_start
      { bobail_to := 7, pawn_from := 20, pawn_to := 5 })).1 = 7881300403814912 ∧
    pack_state (canonicalize (apply_move canonical_start
      { bobail_to := 7, pawn_from := 24, pawn_to := 9 })).1 = 7881300403814912 ∧
    (phase2_flush_value
      (phase2_process_item (fun p => some p) (fun _ => [])
        (0, pack_state canonical_start))
      7881300403814912).count 0 = 2 := by
  refine ⟨by decide, by decide, by decide, by decide, by decide, by decide⟩

end Bobail
